import Mathlib

/-!
Verification development for the go-chat real-time hub.

The definitions below are a shallow embedding of the hub subsystem:

* `Message`, `marshal`      — the wire struct `websocket.Message` and its
  `json.Marshal` image (field order and tag names follow the Go struct).
* `Client`, `QState`, `HubState` — a `*websocket.Client` (identified by `id`,
  which models pointer identity), its bounded outbound channel `send`
  (capacity 256, created in `websocketHandler`), and the hub's
  `rooms : map[int64]map[*Client]bool` registry together with every client's
  queue state.
* `registerClient`, `unregisterClient`, `handleBroadcast`, `broadcastToRoom`
  — the four hub methods from `internal/websocket` (hub section of the repo).
  Each returns the successor state plus a list of observable `Event`s:
  a successful non-blocking enqueue, a queue close, a persistence attempt,
  and the two Go-panic situations (send on a closed channel, close of a
  closed channel), which the safety theorems prove unreachable.
* `readPump` — the per-connection reader goroutine.
* `GetRoomMessages`, `getRoomMessagesHandler` — the history query of
  `internal/store/messages.go` over a relational model of the
  `messages`/`users` tables, and its caller with limit 100.
-/

set_option maxRecDepth 100000

/-- A JSON scalar as produced by `json.Marshal` for the fields of
`websocket.Message` (`int64` and `string` fields only). -/
inductive JVal where
  | jint (n : Int)
  | jstr (s : String)
deriving DecidableEq, Repr

/-- A serialized frame: the ordered field list of one marshalled JSON object. -/
def Frame := List (String × JVal)
deriving DecidableEq, Repr

/-- The wire struct `websocket.Message`: the struct broadcast over the socket.
Fields and their JSON tags are exactly those of the Go struct
(`room_id`, `user_id`, `username`, `content`, `type`); there is no
`created_at` field in this struct. -/
structure Message where
  roomID : Int
  userID : Int
  username : String
  content : String
  type : String
deriving DecidableEq, Repr

/-- Image of `json.Marshal` on `websocket.Message`: one JSON object whose fields appear
in struct order under their tag names.  Marshalling this struct cannot fail,
so the error branch of `broadcastToRoom` is dead for this type. -/
def marshal (m : Message) : Frame :=
  [("room_id", JVal.jint m.roomID),
   ("user_id", JVal.jint m.userID),
   ("username", JVal.jstr m.username),
   ("content", JVal.jstr m.content),
   ("type", JVal.jstr m.type)]

/-- The connection struct `websocket.Client`: `id` models the pointer identity of the Go
`*Client`; the remaining fields are `userID`, `username`, `roomID`.
The `send` channel is kept separately in `HubState.queues`. -/
structure Client where
  id : Nat
  userID : Int
  username : String
  roomID : Int
deriving DecidableEq, Repr

/-- Capacity of the `send` channel: `make(chan []byte, 256)` in
`websocketHandler`. -/
def sendBufferCapacity : Nat := 256

/-- State of one client's `send` channel: the buffered frames (oldest first)
and whether the channel has been closed. -/
structure QState where
  msgs : List Frame
  closed : Bool
deriving DecidableEq, Repr

/-- The `store.Message` fields that `handleBroadcast` hands to
`store.Messages.Create`. -/
structure DbMessage where
  roomID : Int
  userID : Int
  content : String
deriving DecidableEq, Repr

/-- Observable events of one hub operation. `sendClosed` and `closeClosed`
mark the two operations that panic in Go (send on a closed channel inside the
broadcast `select`, and `close` of an already-closed channel); the safety
theorems show they never occur on reachable states. -/
inductive Event where
  | enqueued (c : Client) (f : Frame)
  | closedQ (c : Client)
  | sendClosed (c : Client)
  | closeClosed (c : Client)
  | persistAttempt (m : DbMessage) (deadlineSeconds : Nat) (ok : Bool)
deriving DecidableEq, Repr

/-- Association-list lookup, modelling Go map indexing. -/
def lookupA {α β : Type} [DecidableEq α] : List (α × β) → α → Option β
  | [], _ => none
  | (a, b) :: t, k => if a = k then some b else lookupA t k

/-- Association-list update/insert, modelling Go map assignment. -/
def setA {α β : Type} [DecidableEq α] : List (α × β) → α → β → List (α × β)
  | [], k, v => [(k, v)]
  | (a, b) :: t, k, v => if a = k then (k, v) :: t else (a, b) :: setA t k v

/-- Association-list key removal, modelling Go `delete`. -/
def eraseA {α β : Type} [DecidableEq α] : List (α × β) → α → List (α × β)
  | [], _ => []
  | (a, b) :: t, k => if a = k then eraseA t k else (a, b) :: eraseA t k

/-- The hub state: the `rooms` registry (`map[int64]map[*Client]bool`, the
inner set kept as an insertion-ordered duplicate-free list) and the channel
state of every constructed client. -/
structure HubState where
  rooms : List (Int × List Client)
  queues : List (Client × QState)
deriving DecidableEq, Repr

/-- The channel of `c`; a client that was never constructed defaults to an
open empty channel (never consulted on reachable states). -/
def findQ (qs : List (Client × QState)) (c : Client) : QState :=
  (lookupA qs c).getD ⟨[], false⟩

/-- The fan-out loop of `broadcastToRoom`: iterate over the room's member
set; a non-blocking send (`select`/`default`) enqueues when the buffer has
room; a full buffer closes the member's channel and deletes it from the set.
A send on a closed channel panics in Go, modelled by `sendClosed` ending the
run.  `pending` is the list of members still to visit, `cur` the current
member set, `qs` the current channel states. -/
def broadcastLoop (frame : Frame) :
    List Client → List Client → List (Client × QState) →
    List Client × List (Client × QState) × List Event
  | [], cur, qs => (cur, qs, [])
  | c :: rest, cur, qs =>
    let q := findQ qs c
    if q.closed then
      (cur, qs, [Event.sendClosed c])
    else if q.msgs.length < sendBufferCapacity then
      let r := broadcastLoop frame rest cur (setA qs c ⟨q.msgs ++ [frame], false⟩)
      (r.1, r.2.1, Event.enqueued c frame :: r.2.2)
    else
      let r := broadcastLoop frame rest (cur.filter (fun x => decide (x ≠ c)))
        (setA qs c ⟨q.msgs, true⟩)
      (r.1, r.2.1, Event.closedQ c :: r.2.2)

/-- Embedding of `Hub.broadcastToRoom`: no-op when the room key is absent; otherwise the
message is marshalled once and offered to every member.  The room key is
written back unconditionally — the eviction branch never deletes the room
entry, even when it drains the set. -/
def broadcastToRoom (st : HubState) (roomID : Int) (m : Message) :
    HubState × List Event :=
  match lookupA st.rooms roomID with
  | none => (st, [])
  | some b =>
    let r := broadcastLoop (marshal m) b b st.queues
    (⟨setA st.rooms roomID r.1, r.2.1⟩, r.2.2)

/-- The synthetic join message built by `registerClient`. -/
def joinMessage (c : Client) : Message :=
  ⟨c.roomID, c.userID, c.username, c.username ++ " joined the room", "join"⟩

/-- The synthetic leave message built by `unregisterClient`. -/
def leaveMessage (c : Client) : Message :=
  ⟨c.roomID, c.userID, c.username, c.username ++ " left the room", "leave"⟩

/-- Embedding of `Hub.registerClient`: create the room bucket if absent, add the client
(map-set insertion, idempotent), then broadcast the join message to the room
including the client itself. -/
def registerClient (st : HubState) (c : Client) : HubState × List Event :=
  let b := (lookupA st.rooms c.roomID).getD []
  let b2 := if c ∈ b then b else b ++ [c]
  broadcastToRoom ⟨setA st.rooms c.roomID b2, st.queues⟩ c.roomID (joinMessage c)

/-- Embedding of `Hub.unregisterClient`: only when the client is still in its room's set,
remove it, close its channel, delete the room key if the set became empty,
then broadcast the leave message.  Closing an already-closed channel would
panic in Go (`closeClosed`). -/
def unregisterClient (st : HubState) (c : Client) : HubState × List Event :=
  match lookupA st.rooms c.roomID with
  | none => (st, [])
  | some b =>
    if c ∈ b then
      if (findQ st.queues c).closed then
        (st, [Event.closeClosed c])
      else
        let b2 := b.filter (fun x => decide (x ≠ c))
        let qs2 := setA st.queues c ⟨(findQ st.queues c).msgs, true⟩
        let rooms2 := if b2.isEmpty then eraseA st.rooms c.roomID
                      else setA st.rooms c.roomID b2
        let r := broadcastToRoom ⟨rooms2, qs2⟩ c.roomID (leaveMessage c)
        (r.1, Event.closedQ c :: r.2)
    else (st, [])

/-- The deadline of the persistence context created inside `handleBroadcast`:
`context.WithTimeout(context.Background(), 5*time.Second)` — derived from
`context.Background()`, hence independent of any caller deadline. -/
def persistTimeoutSeconds : Nat := 5

/-- Embedding of `Hub.handleBroadcast`: persist only when `Type == "message"` (best
effort: a failed or timed-out `Create` is logged and ignored), then fan out
to the room.  `persistOk` is the externally determined outcome of the store
call; it influences nothing but the recorded attempt. -/
def handleBroadcast (st : HubState) (m : Message) (persistOk : Bool) :
    HubState × List Event :=
  let pEvs := if m.type = "message" then
      [Event.persistAttempt ⟨m.roomID, m.userID, m.content⟩ persistTimeoutSeconds persistOk]
    else []
  let r := broadcastToRoom st m.roomID m
  (r.1, pEvs ++ r.2)

/-- One request on the hub's event stream.  `register` also creates the
client's channel (done by `websocketHandler` just before sending the client
to `hub.register`), once per client pointer. -/
inductive Op where
  | register (c : Client)
  | unregister (c : Client)
  | broadcast (m : Message) (persistOk : Bool)
deriving DecidableEq, Repr

/-- Process one request as `Hub.Run` does. -/
def step (st : HubState) : Op → HubState × List Event
  | Op.register c =>
    let st1 : HubState :=
      if (lookupA st.queues c).isSome then st
      else ⟨st.rooms, setA st.queues c ⟨[], false⟩⟩
    registerClient st1 c
  | Op.unregister c => unregisterClient st c
  | Op.broadcast m ok => handleBroadcast st m ok

/-- The empty hub produced by `NewHub`. -/
def initHub : HubState := ⟨[], []⟩

/-- Run a finite request sequence through the hub loop, collecting events. -/
def run (st : HubState) : List Op → HubState × List Event
  | [] => (st, [])
  | op :: rest =>
    let r := step st op
    let r2 := run r.1 rest
    (r2.1, r.2 ++ r2.2)

/-- Number of `closedQ c` events in a trace. -/
def closedQCount (c : Client) (evs : List Event) : Nat :=
  (evs.filter (fun e => decide (e = Event.closedQ c))).length

/-- How many times `ops` registers exactly the client `c`. -/
def regCount (c : Client) : List Op → Nat
  | [] => 0
  | Op.register c2 :: rest => (if c2 = c then 1 else 0) + regCount c rest
  | _ :: rest => regCount c rest

/-- Returns `true` when some client is registered twice in the sequence. -/
def dupReg : List Op → Bool
  | [] => false
  | Op.register c :: rest => (0 < regCount c rest) || dupReg rest
  | _ :: rest => dupReg rest

/-- Outcome of one `conn.ReadMessage()` call in `readPump`: a frame payload,
or any read error — a malformed or oversized (beyond `maxMessageSize`)
websocket frame surfaces here as a read error. -/
inductive ReadResult where
  | frame (payload : String)
  | readFail
deriving DecidableEq, Repr

/-- The `Message` that `readPump` builds from one inbound frame: the raw
payload becomes `Content`, tagged with this connection's identity and
`Type: "message"`.  No parsing or validation of the payload happens. -/
def mkInbound (c : Client) (payload : String) : Message :=
  ⟨c.roomID, c.userID, c.username, payload, "message"⟩

/-- Embedding of `Client.readPump` over a finite prefix of read outcomes: every
successfully read frame is submitted to `hub.broadcast`; the first read
error breaks the loop, and the deferred cleanup submits the client to
`hub.unregister` (second component `true`).  An error-free prefix leaves
the loop still running (`false`). -/
def readPump (c : Client) : List ReadResult → List Message × Bool
  | [] => ([], false)
  | ReadResult.frame p :: rest =>
    let r := readPump c rest
    (mkInbound c p :: r.1, r.2)
  | ReadResult.readFail :: _ => ([], true)

/-- The frame payloads strictly before the first read failure. -/
def framesBeforeFailure : List ReadResult → List String
  | [] => []
  | ReadResult.frame p :: rest => p :: framesBeforeFailure rest
  | ReadResult.readFail :: _ => []

/-- A row of the `messages` table (`created_at` as an abstract timestamp). -/
structure MsgRow where
  id : Int
  roomID : Int
  userID : Int
  content : String
  createdAt : Nat
deriving DecidableEq, Repr

/-- A row of the `users` table (the columns the history join reads). -/
structure UserRow where
  id : Int
  username : String
deriving DecidableEq, Repr

/-- The relational state the history query reads. -/
structure ChatDB where
  messages : List MsgRow
  users : List UserRow
deriving DecidableEq, Repr

/-- A `store.Message` as scanned by `GetRoomMessages`: message columns
joined with the sender's `username`. -/
structure HistoryRecord where
  id : Int
  roomID : Int
  userID : Int
  content : String
  username : String
  createdAt : Nat
deriving DecidableEq, Repr

/-- The join `INNER JOIN users u ON m.user_id = u.id`: keep the row only when a user
with the sender's id exists, attaching that user's name. -/
def joinRow (us : List UserRow) (r : MsgRow) : Option HistoryRecord :=
  (us.find? (fun u => decide (u.id = r.userID))).map
    (fun u => ⟨r.id, r.roomID, r.userID, r.content, u.username, r.createdAt⟩)

/-- Newest-first ordering used by `ORDER BY m.created_at DESC`. -/
def newerFirst (a b : HistoryRecord) : Prop := b.createdAt ≤ a.createdAt

instance : DecidableRel newerFirst := fun a b => Nat.decLe b.createdAt a.createdAt

instance : IsTotal HistoryRecord newerFirst :=
  ⟨fun a b => (Nat.le_total b.createdAt a.createdAt).imp id id⟩

instance : IsTrans HistoryRecord newerFirst :=
  ⟨fun _ _ _ h1 h2 => Nat.le_trans h2 h1⟩

/-- The SQL query of `GetRoomMessages` before `LIMIT`: room filter, user
join, newest first. -/
def newestFirst (db : ChatDB) (roomID : Int) : List HistoryRecord :=
  ((db.messages.filter (fun r => decide (r.roomID = roomID))).filterMap
    (joinRow db.users)).insertionSort newerFirst

/-- Embedding of `MessageStore.GetRoomMessages`: scan the newest-first query limited to
`limit` rows, then reverse in code to chronological order. -/
def GetRoomMessages (db : ChatDB) (roomID : Int) (limit : Nat) : List HistoryRecord :=
  ((newestFirst db roomID).take limit).reverse

/-- Embedding of `getRoomMessagesHandler`: the HTTP handler requests the last 100. -/
def getRoomMessagesHandler (db : ChatDB) (roomID : Int) : List HistoryRecord :=
  GetRoomMessages db roomID 100

/-- Characterization helper: the event `broadcastToRoom` produces for member
`c` given the channel states at loop entry. -/
def evOf (qs : List (Client × QState)) (f : Frame) (c : Client) : Event :=
  if (findQ qs c).msgs.length < sendBufferCapacity then Event.enqueued c f
  else Event.closedQ c

/-- Characterization helper: the channel state of member `c` after one
broadcast, given the states at loop entry. -/
def qAfter (qs : List (Client × QState)) (f : Frame) (c : Client) : QState :=
  if (findQ qs c).msgs.length < sendBufferCapacity then
    ⟨(findQ qs c).msgs ++ [f], false⟩
  else ⟨(findQ qs c).msgs, true⟩

/-- Characterization helper: whether a member survives one broadcast
(non-members of the visited list are untouched). -/
def keep (pending : List Client) (qs : List (Client × QState)) (x : Client) : Bool :=
  if x ∈ pending then decide ((findQ qs x).msgs.length < sendBufferCapacity) else true

theorem lookupA_setA {α β : Type} [DecidableEq α] (l : List (α × β)) (k k' : α) (v : β) :
    lookupA (setA l k v) k' = if k = k' then some v else lookupA l k' := by
  induction l with
  | nil => simp [setA, lookupA]
  | cons p t ih =>
    obtain ⟨a, b⟩ := p
    by_cases hak : a = k
    · subst hak
      simp only [setA, if_pos rfl, lookupA]
      by_cases h2 : a = k'
      · subst h2; simp [lookupA]
      · simp [lookupA, h2]
    · simp only [setA, if_neg hak, lookupA]
      by_cases h2 : a = k'
      · subst h2
        have h3 : ¬ k = a := fun h => hak h.symm
        simp [h3]
      · simp [h2, ih]

theorem lookupA_eraseA {α β : Type} [DecidableEq α] (l : List (α × β)) (k k' : α) :
    lookupA (eraseA l k) k' = if k' = k then none else lookupA l k' := by
  induction l with
  | nil => simp [eraseA, lookupA]
  | cons p t ih =>
    obtain ⟨a, b⟩ := p
    by_cases hak : a = k
    · subst hak
      simp only [eraseA, if_pos rfl, ih, lookupA]
      by_cases h2 : k' = a
      · subst h2; simp [ih]
      · have h3 : ¬ a = k' := fun h => h2 h.symm
        simp [h2, h3, ih]
    · simp only [eraseA, if_neg hak, lookupA]
      by_cases h2 : a = k'
      · subst h2
        have h3 : ¬ a = k := hak
        have h4 : ¬ a = k := hak
        simp [ih, h3]
      · simp [h2, ih]

theorem findQ_setA (qs : List (Client × QState)) (c c' : Client) (q : QState) :
    findQ (setA qs c q) c' = if c = c' then q else findQ qs c' := by
  unfold findQ
  rw [lookupA_setA]
  by_cases h : c = c' <;> simp [h]

theorem broadcastLoop_spec (f : Frame) (pending : List Client) :
    ∀ (cur : List Client) (qs : List (Client × QState)),
    pending.Nodup → (∀ c ∈ pending, (findQ qs c).closed = false) →
    ((broadcastLoop f pending cur qs).2.2 = pending.map (evOf qs f)) ∧
    (∀ c, lookupA (broadcastLoop f pending cur qs).2.1 c =
        if c ∈ pending then some (qAfter qs f c) else lookupA qs c) ∧
    ((broadcastLoop f pending cur qs).1 = cur.filter (keep pending qs)) := by
  induction pending with
  | nil =>
    intro cur qs _ _
    refine ⟨rfl, fun c => by simp [broadcastLoop], ?_⟩
    simp only [broadcastLoop]
    rw [List.filter_eq_self.mpr]
    intro a _
    simp [keep]
  | cons c rest ih =>
    intro cur qs hnd hopen
    obtain ⟨hcrest, hndr⟩ := List.nodup_cons.mp hnd
    have hq : (findQ qs c).closed = false := hopen c (List.mem_cons_self c rest)
    by_cases hlt : (findQ qs c).msgs.length < sendBufferCapacity
    · -- non-blocking send succeeds
      have hstep : broadcastLoop f (c :: rest) cur qs =
          ((broadcastLoop f rest cur (setA qs c ⟨(findQ qs c).msgs ++ [f], false⟩)).1,
           (broadcastLoop f rest cur (setA qs c ⟨(findQ qs c).msgs ++ [f], false⟩)).2.1,
           Event.enqueued c f ::
             (broadcastLoop f rest cur (setA qs c ⟨(findQ qs c).msgs ++ [f], false⟩)).2.2) := by
        simp [broadcastLoop, hq, hlt]
      set qs1 := setA qs c ⟨(findQ qs c).msgs ++ [f], false⟩ with hqs1
      have hfind : ∀ x, x ≠ c → findQ qs1 x = findQ qs x := by
        intro x hx
        rw [hqs1, findQ_setA, if_neg (fun h => hx h.symm)]
      have hopen1 : ∀ x ∈ rest, (findQ qs1 x).closed = false := by
        intro x hx
        have hxc : x ≠ c := by rintro rfl; exact hcrest hx
        rw [hfind x hxc]
        exact hopen x (List.mem_cons_of_mem c hx)
      obtain ⟨hE, hQ, hB⟩ := ih cur qs1 hndr hopen1
      refine ⟨?_, ?_, ?_⟩
      · rw [hstep]
        simp only [List.map_cons]
        rw [hE]
        congr 1
        · simp [evOf, hlt]
        · apply List.map_congr_left
          intro x hx
          have hxc : x ≠ c := by rintro rfl; exact hcrest hx
          simp [evOf, hfind x hxc]
      · intro c'
        rw [hstep]
        simp only []
        rw [hQ c']
        by_cases h1 : c' = c
        · subst h1
          have hqa : qAfter qs f c' = ⟨(findQ qs c').msgs ++ [f], false⟩ := by
            unfold qAfter
            rw [if_pos hlt]
          rw [if_neg hcrest, if_pos (List.mem_cons_self c' rest), hqa, hqs1]
          rw [findQ, lookupA_setA, if_pos rfl]
        · by_cases h2 : c' ∈ rest
          · rw [if_pos h2, if_pos (List.mem_cons_of_mem c h2)]
            simp only [qAfter, hfind c' h1]
          · have h3 : c' ∉ c :: rest := by
              intro h
              rcases List.mem_cons.mp h with h | h
              · exact h1 h
              · exact h2 h
            rw [if_neg h2, if_neg h3, hqs1, lookupA_setA, if_neg (fun h => h1 h.symm)]
      · rw [hstep]
        simp only []
        rw [hB]
        congr 1
        funext x
        by_cases h1 : x = c
        · subst h1
          simp [keep, hcrest, hlt, List.mem_cons_self]
        · by_cases h2 : x ∈ rest
          · have h3 : x ∈ c :: rest := List.mem_cons_of_mem c h2
            simp [keep, h2, h3, hfind x h1]
          · have h3 : x ∉ c :: rest := by
              intro h
              rcases List.mem_cons.mp h with h | h
              · exact h1 h
              · exact h2 h
            simp [keep, h2, h3]
    · -- full buffer: evict
      have hstep : broadcastLoop f (c :: rest) cur qs =
          ((broadcastLoop f rest (cur.filter (fun x => decide (x ≠ c)))
              (setA qs c ⟨(findQ qs c).msgs, true⟩)).1,
           (broadcastLoop f rest (cur.filter (fun x => decide (x ≠ c)))
              (setA qs c ⟨(findQ qs c).msgs, true⟩)).2.1,
           Event.closedQ c ::
             (broadcastLoop f rest (cur.filter (fun x => decide (x ≠ c)))
                (setA qs c ⟨(findQ qs c).msgs, true⟩)).2.2) := by
        simp [broadcastLoop, hq, hlt]
      set qs1 := setA qs c ⟨(findQ qs c).msgs, true⟩ with hqs1
      have hfind : ∀ x, x ≠ c → findQ qs1 x = findQ qs x := by
        intro x hx
        rw [hqs1, findQ_setA, if_neg (fun h => hx h.symm)]
      have hopen1 : ∀ x ∈ rest, (findQ qs1 x).closed = false := by
        intro x hx
        have hxc : x ≠ c := by rintro rfl; exact hcrest hx
        rw [hfind x hxc]
        exact hopen x (List.mem_cons_of_mem c hx)
      obtain ⟨hE, hQ, hB⟩ := ih (cur.filter (fun x => decide (x ≠ c))) qs1 hndr hopen1
      refine ⟨?_, ?_, ?_⟩
      · rw [hstep]
        simp only [List.map_cons]
        rw [hE]
        congr 1
        · simp [evOf, hlt]
        · apply List.map_congr_left
          intro x hx
          have hxc : x ≠ c := by rintro rfl; exact hcrest hx
          simp [evOf, hfind x hxc]
      · intro c'
        rw [hstep]
        simp only []
        rw [hQ c']
        by_cases h1 : c' = c
        · subst h1
          have hqa : qAfter qs f c' = ⟨(findQ qs c').msgs, true⟩ := by
            unfold qAfter
            rw [if_neg hlt]
          rw [if_neg hcrest, if_pos (List.mem_cons_self c' rest), hqa, hqs1]
          rw [findQ, lookupA_setA, if_pos rfl]
        · by_cases h2 : c' ∈ rest
          · rw [if_pos h2, if_pos (List.mem_cons_of_mem c h2)]
            simp only [qAfter, hfind c' h1]
          · have h3 : c' ∉ c :: rest := by
              intro h
              rcases List.mem_cons.mp h with h | h
              · exact h1 h
              · exact h2 h
            rw [if_neg h2, if_neg h3, hqs1, lookupA_setA, if_neg (fun h => h1 h.symm)]
      · rw [hstep]
        simp only []
        rw [hB, List.filter_filter]
        congr 1
        funext x
        by_cases h1 : x = c
        · subst h1
          simp [keep, hlt, List.mem_cons_self]
        · by_cases h2 : x ∈ rest
          · have h3 : x ∈ c :: rest := List.mem_cons_of_mem c h2
            simp [keep, h2, h3, hfind x h1, h1]
          · have h3 : x ∉ c :: rest := by
              intro h
              rcases List.mem_cons.mp h with h | h
              · exact h1 h
              · exact h2 h
            simp [keep, h2, h3, h1]

theorem length_filter_mono {α : Type} (l : List α) (p q : α → Bool)
    (h : ∀ x ∈ l, p x = true → q x = true) :
    (l.filter p).length ≤ (l.filter q).length := by
  induction l with
  | nil => simp
  | cons a t ih =>
    have ht : ∀ x ∈ t, p x = true → q x = true :=
      fun x hx => h x (List.mem_cons_of_mem a hx)
    by_cases hp : p a = true
    · have hq : q a = true := h a (List.mem_cons_self a t) hp
      simp only [List.filter_cons, hp, hq, if_pos, List.length_cons]
      exact Nat.succ_le_succ (ih ht)
    · have hp2 : p a = false := by
        cases hpa : p a
        · rfl
        · exact absurd hpa hp
      simp only [List.filter_cons, hp2, Bool.false_eq_true, if_neg, ite_false]
      cases hq : q a
      · simp only [Bool.false_eq_true, ite_false]
        exact ih ht
      · simp only [ite_true, List.length_cons]
        exact Nat.le_succ_of_le (ih ht)

theorem nodup_filter_eq_le_one {α : Type} [DecidableEq α] (l : List α) (hnd : l.Nodup)
    (c : α) : (l.filter (fun x => decide (x = c))).length ≤ 1 := by
  induction l with
  | nil => simp
  | cons a t ih =>
    obtain ⟨hat, hndt⟩ := List.nodup_cons.mp hnd
    by_cases h : a = c
    · subst h
      have hnil : t.filter (fun x => decide (x = a)) = [] := by
        rw [List.filter_eq_nil_iff]
        intro x hx
        simp only [decide_eq_true_eq]
        rintro rfl
        exact hat hx
      simp [List.filter_cons, hnil]
    · simp only [List.filter_cons, h, decide_eq_true_eq, ite_false, if_neg]
      exact ih hndt

theorem evOf_ne_sendClosed (qs : List (Client × QState)) (f : Frame) (x c : Client) :
    evOf qs f x ≠ Event.sendClosed c := by
  unfold evOf
  split <;> simp

theorem evOf_ne_closeClosed (qs : List (Client × QState)) (f : Frame) (x c : Client) :
    evOf qs f x ≠ Event.closeClosed c := by
  unfold evOf
  split <;> simp

theorem evOf_eq_closedQ (qs : List (Client × QState)) (f : Frame) (x c : Client)
    (h : evOf qs f x = Event.closedQ c) :
    x = c ∧ ¬ (findQ qs x).msgs.length < sendBufferCapacity := by
  unfold evOf at h
  by_cases hlt : (findQ qs x).msgs.length < sendBufferCapacity
  · rw [if_pos hlt] at h
    exact absurd h (by simp)
  · rw [if_neg hlt] at h
    have hx : x = c := by
      cases h
      rfl
    exact ⟨hx, hlt⟩

theorem closedQCount_append (c : Client) (e1 e2 : List Event) :
    closedQCount c (e1 ++ e2) = closedQCount c e1 + closedQCount c e2 := by
  unfold closedQCount
  rw [List.filter_append, List.length_append]

theorem closedQCount_map_evOf (c : Client) (b : List Client)
    (qs : List (Client × QState)) (f : Frame) (hnd : b.Nodup) :
    closedQCount c (b.map (evOf qs f)) ≤ 1 := by
  unfold closedQCount
  rw [List.filter_map (evOf qs f) b, List.length_map]
  calc (b.filter ((fun e => decide (e = Event.closedQ c)) ∘ evOf qs f)).length
      ≤ (b.filter (fun x => decide (x = c))).length := by
        apply length_filter_mono
        intro x _ hx
        simp only [Function.comp, decide_eq_true_eq] at hx
        simp [(evOf_eq_closedQ qs f x c hx).1]
    _ ≤ 1 := nodup_filter_eq_le_one b hnd c

theorem closedQCount_map_evOf_zero (c : Client) (b : List Client)
    (qs : List (Client × QState)) (f : Frame) (hc : c ∉ b) :
    closedQCount c (b.map (evOf qs f)) = 0 := by
  unfold closedQCount
  rw [List.filter_map (evOf qs f) b, List.length_map, List.length_eq_zero]
  rw [List.filter_eq_nil_iff]
  intro x hx
  simp only [Function.comp, decide_eq_true_eq]
  intro h
  exact hc ((evOf_eq_closedQ qs f x c h).1 ▸ hx)

theorem broadcastLoop_enqueued_frame (f : Frame) (pending : List Client) :
    ∀ (cur : List Client) (qs : List (Client × QState)) (c : Client) (f2 : Frame),
    Event.enqueued c f2 ∈ (broadcastLoop f pending cur qs).2.2 → f2 = f := by
  induction pending with
  | nil =>
    intro cur qs c f2 h
    simp [broadcastLoop] at h
  | cons d rest ih =>
    intro cur qs c f2 h
    cases hcl : (findQ qs d).closed
    · by_cases hlt : (findQ qs d).msgs.length < sendBufferCapacity
      · have hstep : (broadcastLoop f (d :: rest) cur qs).2.2 =
            Event.enqueued d f ::
              (broadcastLoop f rest cur
                (setA qs d ⟨(findQ qs d).msgs ++ [f], false⟩)).2.2 := by
          simp [broadcastLoop, hcl, hlt]
        rw [hstep] at h
        rcases List.mem_cons.mp h with h | h
        · cases h
          rfl
        · exact ih _ _ _ _ h
      · have hstep : (broadcastLoop f (d :: rest) cur qs).2.2 =
            Event.closedQ d ::
              (broadcastLoop f rest (cur.filter (fun x => decide (x ≠ d)))
                (setA qs d ⟨(findQ qs d).msgs, true⟩)).2.2 := by
          simp [broadcastLoop, hcl, hlt]
        rw [hstep] at h
        rcases List.mem_cons.mp h with h | h
        · exact absurd h (by simp)
        · exact ih _ _ _ _ h
    · have hstep : (broadcastLoop f (d :: rest) cur qs).2.2 = [Event.sendClosed d] := by
        simp [broadcastLoop, hcl]
      rw [hstep] at h
      rcases List.mem_cons.mp h with h | h
      · exact absurd h (by simp)
      · exact absurd h (by simp)

theorem broadcastToRoom_spec (st : HubState) (rid : Int) (m : Message) (b : List Client)
    (hb : lookupA st.rooms rid = some b) (hnd : b.Nodup)
    (hopen : ∀ c ∈ b, (findQ st.queues c).closed = false) :
    (broadcastToRoom st rid m).2 = b.map (evOf st.queues (marshal m)) ∧
    (∀ c, lookupA (broadcastToRoom st rid m).1.queues c =
        if c ∈ b then some (qAfter st.queues (marshal m) c) else lookupA st.queues c) ∧
    lookupA (broadcastToRoom st rid m).1.rooms rid =
      some (b.filter (keep b st.queues)) ∧
    (∀ r2, r2 ≠ rid →
        lookupA (broadcastToRoom st rid m).1.rooms r2 = lookupA st.rooms r2) := by
  obtain ⟨hE, hQ, hB⟩ := broadcastLoop_spec (marshal m) b b st.queues hnd hopen
  have hred : broadcastToRoom st rid m =
      (⟨setA st.rooms rid (broadcastLoop (marshal m) b b st.queues).1,
        (broadcastLoop (marshal m) b b st.queues).2.1⟩,
       (broadcastLoop (marshal m) b b st.queues).2.2) := by
    simp [broadcastToRoom, hb]
  rw [hred]
  refine ⟨hE, hQ, ?_, ?_⟩
  · simp only []
    rw [lookupA_setA, if_pos rfl, hB]
  · intro r2 h2
    simp only []
    rw [lookupA_setA, if_neg (fun h => h2 h.symm)]

theorem broadcastToRoom_keys (st : HubState) (rid : Int) (m : Message) (r2 : Int) :
    (lookupA (broadcastToRoom st rid m).1.rooms r2).isSome =
      (lookupA st.rooms r2).isSome := by
  unfold broadcastToRoom
  cases hl : lookupA st.rooms rid with
  | none => rfl
  | some b =>
    simp only []
    rw [lookupA_setA]
    by_cases h : rid = r2
    · subst h
      rw [if_pos rfl, hl]
      rfl
    · rw [if_neg h]

/-- Well-formedness of a hub state: every registered bucket is
duplicate-free, contains only clients of that room, and every member has a
constructed, still-open channel.  This is the invariant the hub loop
maintains (it is what makes the non-blocking send panic-free). -/
def WF (st : HubState) : Prop :=
  ∀ r b, lookupA st.rooms r = some b →
    b.Nodup ∧ ∀ c ∈ b, c.roomID = r ∧ (lookupA st.queues c).isSome = true ∧
      (findQ st.queues c).closed = false

theorem initHub_WF : WF initHub := by
  intro r b hb
  simp [initHub, lookupA] at hb

theorem broadcastToRoom_safety (st : HubState) (rid : Int) (m : Message)
    (hWF : WF st) :
    WF (broadcastToRoom st rid m).1 ∧
    (∀ c, Event.sendClosed c ∉ (broadcastToRoom st rid m).2) ∧
    (∀ c, Event.closeClosed c ∉ (broadcastToRoom st rid m).2) ∧
    (∀ c, closedQCount c (broadcastToRoom st rid m).2 ≤ 1) ∧
    (∀ c, (findQ st.queues c).closed = true →
        closedQCount c (broadcastToRoom st rid m).2 = 0 ∧
        findQ (broadcastToRoom st rid m).1.queues c = findQ st.queues c) ∧
    (∀ c, 1 ≤ closedQCount c (broadcastToRoom st rid m).2 →
        (findQ (broadcastToRoom st rid m).1.queues c).closed = true) ∧
    (∀ c, (lookupA (broadcastToRoom st rid m).1.queues c).isSome =
        (lookupA st.queues c).isSome) := by
  cases hl : lookupA st.rooms rid with
  | none =>
    have hred : broadcastToRoom st rid m = (st, []) := by
      simp [broadcastToRoom, hl]
    rw [hred]
    refine ⟨hWF, fun c => by simp, fun c => by simp,
      fun c => by simp [closedQCount],
      fun c _ => ⟨by simp [closedQCount], rfl⟩,
      fun c hc => absurd hc (by simp [closedQCount]),
      fun c => rfl⟩
  | some b =>
    obtain ⟨hnd, hmem⟩ := hWF rid b hl
    have hopen : ∀ c ∈ b, (findQ st.queues c).closed = false :=
      fun c hc => (hmem c hc).2.2
    obtain ⟨hE, hQ, hR, hO⟩ := broadcastToRoom_spec st rid m b hl hnd hopen
    refine ⟨?_, ?_, ?_, ?_, ?_, ?_, ?_⟩
    · -- WF is preserved
      intro r2 b2 hb2
      by_cases hr : r2 = rid
      · rw [hr] at hb2 ⊢
        rw [hR] at hb2
        obtain rfl := (Option.some.inj hb2).symm
        refine ⟨hnd.filter _, fun c hc => ?_⟩
        obtain ⟨hcb, hkeep⟩ := List.mem_filter.mp hc
        have hlt : (findQ st.queues c).msgs.length < sendBufferCapacity := by
          unfold keep at hkeep
          rw [if_pos hcb] at hkeep
          exact of_decide_eq_true hkeep
        have hfq : findQ (broadcastToRoom st rid m).1.queues c =
            qAfter st.queues (marshal m) c := by
          unfold findQ
          rw [hQ c, if_pos hcb]
          rfl
        refine ⟨(hmem c hcb).1, ?_, ?_⟩
        · rw [hQ c, if_pos hcb]
          rfl
        · rw [hfq]
          unfold qAfter
          rw [if_pos hlt]
      · rw [hO r2 hr] at hb2
        obtain ⟨hnd2, hmem2⟩ := hWF r2 b2 hb2
        refine ⟨hnd2, fun c hc => ?_⟩
        have hcni : c ∉ b := by
          intro hcb
          exact hr (((hmem2 c hc).1).symm.trans ((hmem c hcb).1))
        have hq2 : lookupA (broadcastToRoom st rid m).1.queues c =
            lookupA st.queues c := by
          rw [hQ c, if_neg hcni]
        refine ⟨(hmem2 c hc).1, ?_, ?_⟩
        · rw [hq2]
          exact (hmem2 c hc).2.1
        · unfold findQ
          rw [hq2]
          exact (hmem2 c hc).2.2
    · intro c hc
      rw [hE] at hc
      obtain ⟨x, _, hev⟩ := List.mem_map.mp hc
      exact evOf_ne_sendClosed _ _ x c hev
    · intro c hc
      rw [hE] at hc
      obtain ⟨x, _, hev⟩ := List.mem_map.mp hc
      exact evOf_ne_closeClosed _ _ x c hev
    · intro c
      rw [hE]
      exact closedQCount_map_evOf c b _ _ hnd
    · intro c hcl
      have hcni : c ∉ b := by
        intro hcb
        rw [hopen c hcb] at hcl
        exact absurd hcl (by simp)
      refine ⟨?_, ?_⟩
      · rw [hE]
        exact closedQCount_map_evOf_zero c b _ _ hcni
      · unfold findQ
        rw [hQ c, if_neg hcni]
    · intro c hc
      rw [hE] at hc
      unfold closedQCount at hc
      have hex : ∃ x ∈ b, evOf st.queues (marshal m) x = Event.closedQ c := by
        by_contra hno
        push_neg at hno
        have hz : (List.filter (fun e => decide (e = Event.closedQ c))
            (b.map (evOf st.queues (marshal m)))).length = 0 := by
          rw [List.length_eq_zero, List.filter_eq_nil_iff]
          intro e he
          obtain ⟨x, hx, rfl⟩ := List.mem_map.mp he
          simp only [decide_eq_true_eq]
          exact hno x hx
        omega
      obtain ⟨x, hx, hev⟩ := hex
      obtain ⟨rfl, hfull⟩ := evOf_eq_closedQ _ _ _ _ hev
      have hfq : findQ (broadcastToRoom st rid m).1.queues x =
          qAfter st.queues (marshal m) x := by
        unfold findQ
        rw [hQ x, if_pos hx]
        rfl
      rw [hfq]
      unfold qAfter
      rw [if_neg hfull]
    · intro c
      by_cases hcb : c ∈ b
      · rw [hQ c, if_pos hcb]
        simp [(hmem c hcb).2.1]
      · rw [hQ c, if_neg hcb]

/-- Safety facts of one hub step, relative to the pre-state: the state stays
well-formed, no Go panic (send on / close of a closed channel) happens, no
channel is closed twice within the step, an already-closed channel is left
untouched and gets no further close, and a close within the step leaves the
channel closed. -/
def SafeStep (st : HubState) (r : HubState × List Event) : Prop :=
  WF r.1 ∧
  (∀ c, Event.sendClosed c ∉ r.2) ∧
  (∀ c, Event.closeClosed c ∉ r.2) ∧
  (∀ c, closedQCount c r.2 ≤ 1) ∧
  (∀ c, (findQ st.queues c).closed = true →
      closedQCount c r.2 = 0 ∧ findQ r.1.queues c = findQ st.queues c) ∧
  (∀ c, 1 ≤ closedQCount c r.2 → (findQ r.1.queues c).closed = true)

theorem register_step_safety (st : HubState) (c : Client) (hWF : WF st)
    (hnone : lookupA st.queues c = none) :
    SafeStep st (step st (Op.register c)) ∧
    (∀ x, (lookupA (step st (Op.register c)).1.queues x).isSome = true →
        (lookupA st.queues x).isSome = true ∨ x = c) := by
  have hnotin : ∀ r b0, lookupA st.rooms r = some b0 → c ∉ b0 := by
    intro r b0 hb0 hc
    have := ((hWF r b0 hb0).2 c hc).2.1
    rw [hnone] at this
    exact absurd this (by simp)
  have hcb : c ∉ (lookupA st.rooms c.roomID).getD [] := by
    cases hlb : lookupA st.rooms c.roomID with
    | none => simp
    | some b0 => exact hnotin c.roomID b0 hlb
  have hbnd : ((lookupA st.rooms c.roomID).getD []).Nodup := by
    cases hlb : lookupA st.rooms c.roomID with
    | none => simp
    | some b0 => exact (hWF c.roomID b0 hlb).1
  have hbmem : ∀ x ∈ (lookupA st.rooms c.roomID).getD [],
      x.roomID = c.roomID ∧ (lookupA st.queues x).isSome = true ∧
      (findQ st.queues x).closed = false := by
    cases hlb : lookupA st.rooms c.roomID with
    | none => simp
    | some b0 =>
      intro x hx
      exact (hWF c.roomID b0 hlb).2 x (by simpa using hx)
  have hstep : step st (Op.register c) =
      broadcastToRoom
        ⟨setA st.rooms c.roomID (((lookupA st.rooms c.roomID).getD []) ++ [c]),
         setA st.queues c ⟨[], false⟩⟩ c.roomID (joinMessage c) := by
    simp [step, hnone, registerClient, hcb]
  set stR : HubState :=
    ⟨setA st.rooms c.roomID (((lookupA st.rooms c.roomID).getD []) ++ [c]),
     setA st.queues c ⟨[], false⟩⟩ with hstR
  have hfindR : ∀ x, x ≠ c → findQ stR.queues x = findQ st.queues x := by
    intro x hx
    rw [hstR]
    simp only []
    rw [findQ_setA, if_neg (fun h => hx h.symm)]
  have hlookR : ∀ x, x ≠ c → lookupA stR.queues x = lookupA st.queues x := by
    intro x hx
    rw [hstR]
    simp only []
    rw [lookupA_setA, if_neg (fun h => hx h.symm)]
  have hfindRc : findQ stR.queues c = ⟨[], false⟩ := by
    rw [hstR]
    simp only []
    rw [findQ_setA, if_pos rfl]
  have hWFR : WF stR := by
    intro r2 b2 hb2
    rw [hstR] at hb2
    simp only [] at hb2
    rw [lookupA_setA] at hb2
    by_cases hr : c.roomID = r2
    · rw [if_pos hr] at hb2
      obtain rfl := (Option.some.inj hb2).symm
      constructor
      · rw [List.nodup_append]
        refine ⟨hbnd, List.nodup_singleton c, ?_⟩
        intro x hx hxc
        rw [List.mem_singleton] at hxc
        exact hcb (hxc ▸ hx)
      · intro x hx
        rcases List.mem_append.mp hx with hx | hx
        · have hxc : x ≠ c := fun h => hcb (h ▸ hx)
          refine ⟨hr ▸ (hbmem x hx).1, ?_, ?_⟩
          · rw [hlookR x hxc]
            exact (hbmem x hx).2.1
          · rw [hfindR x hxc]
            exact (hbmem x hx).2.2
        · rw [List.mem_singleton] at hx
          subst hx
          refine ⟨hr ▸ rfl, ?_, ?_⟩
          · rw [hstR]
            simp only []
            rw [lookupA_setA, if_pos rfl]
            rfl
          · rw [hfindRc]
    · rw [if_neg hr] at hb2
      obtain ⟨hnd2, hmem2⟩ := hWF r2 b2 hb2
      refine ⟨hnd2, fun x hx => ?_⟩
      have hxc : x ≠ c := by
        rintro rfl
        exact hr (hmem2 x hx).1
      refine ⟨(hmem2 x hx).1, ?_, ?_⟩
      · rw [hlookR x hxc]
        exact (hmem2 x hx).2.1
      · rw [hfindR x hxc]
        exact (hmem2 x hx).2.2
  obtain ⟨bWF, bSend, bClose, bCnt, bClosed, bGe, bSome⟩ :=
    broadcastToRoom_safety stR c.roomID (joinMessage c) hWFR
  rw [hstep]
  refine ⟨⟨bWF, bSend, bClose, bCnt, ?_, bGe⟩, ?_⟩
  · intro x hx
    have hxc : x ≠ c := by
      rintro rfl
      rw [findQ, hnone] at hx
      exact absurd hx (by simp [Option.getD])
    have hx2 : (findQ stR.queues x).closed = true := by
      rw [hfindR x hxc]
      exact hx
    obtain ⟨h1, h2⟩ := bClosed x hx2
    exact ⟨h1, by rw [h2, hfindR x hxc]⟩
  · intro x hx
    rw [bSome x] at hx
    by_cases hxc : x = c
    · exact Or.inr hxc
    · rw [hlookR x hxc] at hx
      exact Or.inl hx

theorem closedQCount_cons (x : Client) (e : Event) (evs : List Event) :
    closedQCount x (e :: evs) =
      (if e = Event.closedQ x then 1 else 0) + closedQCount x evs := by
  unfold closedQCount
  rw [List.filter_cons]
  by_cases h : e = Event.closedQ x
  · simp [h, Nat.add_comm]
  · simp [h]

theorem unregister_step_safety (st : HubState) (c : Client) (hWF : WF st) :
    SafeStep st (step st (Op.unregister c)) ∧
    (∀ x, (lookupA (step st (Op.unregister c)).1.queues x).isSome = true →
        (lookupA st.queues x).isSome = true) := by
  have hstep : step st (Op.unregister c) = unregisterClient st c := rfl
  rw [hstep]
  cases hl : lookupA st.rooms c.roomID with
  | none =>
    have hred : unregisterClient st c = (st, []) := by
      simp [unregisterClient, hl]
    rw [hred]
    refine ⟨⟨hWF, fun x => by simp, fun x => by simp,
      fun x => by simp [closedQCount],
      fun x _ => ⟨by simp [closedQCount], rfl⟩,
      fun x hx => absurd hx (by simp [closedQCount])⟩, fun x hx => hx⟩
  | some b =>
    by_cases hcb : c ∈ b
    · have hcop : (findQ st.queues c).closed = false := ((hWF _ b hl).2 c hcb).2.2
      have hcsome : (lookupA st.queues c).isSome = true := ((hWF _ b hl).2 c hcb).2.1
      have hnd : b.Nodup := (hWF _ b hl).1
      set b2 := b.filter (fun x => decide (x ≠ c)) with hb2def
      set stU : HubState :=
        ⟨if b2.isEmpty then eraseA st.rooms c.roomID else setA st.rooms c.roomID b2,
         setA st.queues c ⟨(findQ st.queues c).msgs, true⟩⟩ with hstU
      have hred : unregisterClient st c =
          ((broadcastToRoom stU c.roomID (leaveMessage c)).1,
           Event.closedQ c :: (broadcastToRoom stU c.roomID (leaveMessage c)).2) := by
        simp [unregisterClient, hl, hcb, hcop, hstU, hb2def]
      have hfindU : ∀ x, x ≠ c → findQ stU.queues x = findQ st.queues x := by
        intro x hx
        rw [hstU]
        simp only []
        rw [findQ_setA, if_neg (fun h => hx h.symm)]
      have hlookU : ∀ x, x ≠ c → lookupA stU.queues x = lookupA st.queues x := by
        intro x hx
        rw [hstU]
        simp only []
        rw [lookupA_setA, if_neg (fun h => hx h.symm)]
      have hfindUc : findQ stU.queues c = ⟨(findQ st.queues c).msgs, true⟩ := by
        rw [hstU]
        simp only []
        rw [findQ_setA, if_pos rfl]
      have hWFU : WF stU := by
        intro r2 b3 hb3
        rw [hstU] at hb3
        simp only [] at hb3
        have hother : ∀ y ∈ b3, lookupA st.rooms r2 = some b3 → y.roomID = r2 → True := fun _ _ _ _ => trivial
        by_cases hbe : b2.isEmpty
        · rw [if_pos hbe, lookupA_eraseA] at hb3
          by_cases hr : r2 = c.roomID
          · rw [if_pos hr] at hb3
            exact absurd hb3 (by simp)
          · rw [if_neg hr] at hb3
            obtain ⟨hnd3, hmem3⟩ := hWF r2 b3 hb3
            refine ⟨hnd3, fun y hy => ?_⟩
            have hyc : y ≠ c := by
              rintro rfl
              exact hr (hmem3 y hy).1.symm
            refine ⟨(hmem3 y hy).1, ?_, ?_⟩
            · rw [hlookU y hyc]
              exact (hmem3 y hy).2.1
            · rw [hfindU y hyc]
              exact (hmem3 y hy).2.2
        · rw [if_neg hbe, lookupA_setA] at hb3
          by_cases hr : c.roomID = r2
          · rw [if_pos hr] at hb3
            obtain rfl := (Option.some.inj hb3).symm
            refine ⟨hnd.filter _, fun y hy => ?_⟩
            obtain ⟨hyb, hyne⟩ := List.mem_filter.mp hy
            have hyc : y ≠ c := of_decide_eq_true hyne
            refine ⟨hr ▸ ((hWF _ b hl).2 y hyb).1, ?_, ?_⟩
            · rw [hlookU y hyc]
              exact ((hWF _ b hl).2 y hyb).2.1
            · rw [hfindU y hyc]
              exact ((hWF _ b hl).2 y hyb).2.2
          · rw [if_neg hr] at hb3
            obtain ⟨hnd3, hmem3⟩ := hWF r2 b3 hb3
            refine ⟨hnd3, fun y hy => ?_⟩
            have hyc : y ≠ c := by
              rintro rfl
              exact hr (hmem3 y hy).1
            refine ⟨(hmem3 y hy).1, ?_, ?_⟩
            · rw [hlookU y hyc]
              exact (hmem3 y hy).2.1
            · rw [hfindU y hyc]
              exact (hmem3 y hy).2.2
      obtain ⟨bWF, bSend, bClose, bCnt, bClosed, bGe, bSome⟩ :=
        broadcastToRoom_safety stU c.roomID (leaveMessage c) hWFU
      have hcU : (findQ stU.queues c).closed = true := by
        rw [hfindUc]
      obtain ⟨hc0, hcpres⟩ := bClosed c hcU
      rw [hred]
      refine ⟨⟨bWF, ?_, ?_, ?_, ?_, ?_⟩, ?_⟩
      · intro x hx
        rcases List.mem_cons.mp hx with hx | hx
        · exact absurd hx (by simp)
        · exact bSend x hx
      · intro x hx
        rcases List.mem_cons.mp hx with hx | hx
        · exact absurd hx (by simp)
        · exact bClose x hx
      · intro x
        rw [closedQCount_cons]
        by_cases hxc : x = c
        · subst hxc
          rw [if_pos rfl, hc0]
        · rw [if_neg (fun h => hxc (Event.closedQ.inj h).symm)]
          simpa using bCnt x
      · intro x hx
        have hxc : x ≠ c := by
          rintro rfl
          rw [hcop] at hx
          exact absurd hx (by simp)
        have hxU : (findQ stU.queues x).closed = true := by
          rw [hfindU x hxc]
          exact hx
        obtain ⟨h1, h2⟩ := bClosed x hxU
        rw [closedQCount_cons, if_neg (fun h => hxc (Event.closedQ.inj h).symm)]
        constructor
        · simpa using h1
        · rw [h2, hfindU x hxc]
      · intro x hx
        by_cases hxc : x = c
        · subst hxc
          rw [hcpres, hfindUc]
        · rw [closedQCount_cons, if_neg (fun h => hxc (Event.closedQ.inj h).symm)] at hx
          exact bGe x (by simpa using hx)
      · intro x hx
        rw [bSome x] at hx
        by_cases hxc : x = c
        · subst hxc
          exact hcsome
        · rw [hlookU x hxc] at hx
          exact hx
    · have hred : unregisterClient st c = (st, []) := by
        simp [unregisterClient, hl, hcb]
      rw [hred]
      refine ⟨⟨hWF, fun x => by simp, fun x => by simp,
        fun x => by simp [closedQCount],
        fun x _ => ⟨by simp [closedQCount], rfl⟩,
        fun x hx => absurd hx (by simp [closedQCount])⟩, fun x hx => hx⟩

theorem broadcast_step_safety (st : HubState) (m : Message) (ok : Bool)
    (hWF : WF st) :
    SafeStep st (step st (Op.broadcast m ok)) ∧
    (∀ x, (lookupA (step st (Op.broadcast m ok)).1.queues x).isSome = true →
        (lookupA st.queues x).isSome = true) := by
  have hred : step st (Op.broadcast m ok) =
      ((broadcastToRoom st m.roomID m).1,
       (if m.type = "message" then
          [Event.persistAttempt ⟨m.roomID, m.userID, m.content⟩ persistTimeoutSeconds ok]
        else []) ++ (broadcastToRoom st m.roomID m).2) := by
    simp [step, handleBroadcast]
  have hp0 : ∀ x, closedQCount x
      (if m.type = "message" then
        [Event.persistAttempt ⟨m.roomID, m.userID, m.content⟩ persistTimeoutSeconds ok]
       else []) = 0 := by
    intro x
    by_cases ht : m.type = "message" <;> simp [ht, closedQCount]
  have hpmem : ∀ e, e ∈ (if m.type = "message" then
      [Event.persistAttempt ⟨m.roomID, m.userID, m.content⟩ persistTimeoutSeconds ok]
      else []) → ∃ d o p, e = Event.persistAttempt p d o := by
    intro e he
    by_cases ht : m.type = "message"
    · rw [if_pos ht, List.mem_singleton] at he
      exact ⟨_, _, _, he⟩
    · rw [if_neg ht] at he
      exact absurd he (by simp)
  obtain ⟨bWF, bSend, bClose, bCnt, bClosed, bGe, bSome⟩ :=
    broadcastToRoom_safety st m.roomID m hWF
  rw [hred]
  refine ⟨⟨bWF, ?_, ?_, ?_, ?_, ?_⟩, ?_⟩
  · intro x hx
    rcases List.mem_append.mp hx with hx | hx
    · obtain ⟨d, o, p, he⟩ := hpmem _ hx
      exact absurd he (by simp)
    · exact bSend x hx
  · intro x hx
    rcases List.mem_append.mp hx with hx | hx
    · obtain ⟨d, o, p, he⟩ := hpmem _ hx
      exact absurd he (by simp)
    · exact bClose x hx
  · intro x
    rw [closedQCount_append, hp0]
    simpa using bCnt x
  · intro x hx
    obtain ⟨h1, h2⟩ := bClosed x hx
    rw [closedQCount_append, hp0]
    exact ⟨by simpa using h1, h2⟩
  · intro x hx
    rw [closedQCount_append, hp0] at hx
    exact bGe x (by simpa using hx)
  · intro x hx
    rw [bSome x] at hx
    exact hx

theorem run_safety : ∀ (ops : List Op) (st : HubState), WF st →
    (∀ c, (lookupA st.queues c).isSome = true → regCount c ops = 0) →
    dupReg ops = false →
    (∀ c, Event.sendClosed c ∉ (run st ops).2) ∧
    (∀ c, Event.closeClosed c ∉ (run st ops).2) ∧
    (∀ c, (findQ st.queues c).closed = true → closedQCount c (run st ops).2 = 0) ∧
    (∀ c, closedQCount c (run st ops).2 ≤ 1) := by
  intro ops
  induction ops with
  | nil =>
    intro st _ _ _
    refine ⟨fun c => by simp [run], fun c => by simp [run],
      fun c _ => by simp [run, closedQCount], fun c => by simp [run, closedQCount]⟩
  | cons op rest ih =>
    intro st hWF hP hD
    have hreg : ∀ c, op = Op.register c → lookupA st.queues c = none := by
      intro c hop
      subst hop
      cases hlk : lookupA st.queues c with
      | none => rfl
      | some q =>
        have hs : (lookupA st.queues c).isSome = true := by rw [hlk]; rfl
        have h0 := hP c hs
        simp [regCount] at h0
    have hstep : SafeStep st (step st op) ∧
        (∀ x, (lookupA (step st op).1.queues x).isSome = true →
          (lookupA st.queues x).isSome = true ∨ op = Op.register x) := by
      cases op with
      | register c =>
        obtain ⟨h1, h2⟩ := register_step_safety st c hWF (hreg c rfl)
        refine ⟨h1, fun x hx => ?_⟩
        rcases h2 x hx with h | h
        · exact Or.inl h
        · exact Or.inr (by rw [h])
      | unregister c =>
        obtain ⟨h1, h2⟩ := unregister_step_safety st c hWF
        exact ⟨h1, fun x hx => Or.inl (h2 x hx)⟩
      | broadcast m ok =>
        obtain ⟨h1, h2⟩ := broadcast_step_safety st m ok hWF
        exact ⟨h1, fun x hx => Or.inl (h2 x hx)⟩
    obtain ⟨⟨sWF, sSend, sClose, sCnt, sClosed, sGe⟩, sSome⟩ := hstep
    have hP2 : ∀ c, (lookupA (step st op).1.queues c).isSome = true →
        regCount c rest = 0 := by
      intro c hc
      rcases sSome c hc with h | h
      · have h0 := hP c h
        cases op with
        | register c2 =>
          simp only [regCount] at h0
          omega
        | unregister c2 => simpa [regCount] using h0
        | broadcast m ok => simpa [regCount] using h0
      · subst h
        simp only [dupReg, Bool.or_eq_false_iff] at hD
        have := hD.1
        simp only [decide_eq_false_iff_not, Nat.not_lt, Nat.le_zero] at this
        exact this
    have hD2 : dupReg rest = false := by
      cases op with
      | register c2 =>
        simp only [dupReg, Bool.or_eq_false_iff] at hD
        exact hD.2
      | unregister c2 => simpa [dupReg] using hD
      | broadcast m ok => simpa [dupReg] using hD
    obtain ⟨rSend, rClose, rClosed, rCnt⟩ := ih (step st op).1 sWF hP2 hD2
    have hrun : run st (op :: rest) =
        ((run (step st op).1 rest).1,
         (step st op).2 ++ (run (step st op).1 rest).2) := by
      simp [run]
    rw [hrun]
    refine ⟨?_, ?_, ?_, ?_⟩
    · intro c hc
      rcases List.mem_append.mp hc with hc | hc
      · exact sSend c hc
      · exact rSend c hc
    · intro c hc
      rcases List.mem_append.mp hc with hc | hc
      · exact sClose c hc
      · exact rClose c hc
    · intro c hcl
      obtain ⟨h0, hpres⟩ := sClosed c hcl
      have h1 : (findQ (step st op).1.queues c).closed = true := by
        rw [hpres]
        exact hcl
      rw [closedQCount_append, h0, rClosed c h1]
    · intro c
      rw [closedQCount_append]
      by_cases h1 : 1 ≤ closedQCount c (step st op).2
      · have h2 := rClosed c (sGe c h1)
        have h3 := sCnt c
        omega
      · have h4 := rCnt c
        omega

/-- The field names of a marshalled frame, in order. -/
def frameKeys (f : Frame) : List String := List.map Prod.fst f

theorem broadcastToRoom_enqueued_frame (st : HubState) (rid : Int) (m : Message)
    (c : Client) (f : Frame)
    (h : Event.enqueued c f ∈ (broadcastToRoom st rid m).2) : f = marshal m := by
  unfold broadcastToRoom at h
  cases hl : lookupA st.rooms rid with
  | none =>
    rw [hl] at h
    exact absurd h (by simp)
  | some b =>
    rw [hl] at h
    exact broadcastLoop_enqueued_frame (marshal m) b b st.queues c f h

theorem broadcastLoop_no_persist (f : Frame) (pending : List Client) :
    ∀ (cur : List Client) (qs : List (Client × QState)) (p : DbMessage) (d : Nat)
    (o : Bool), Event.persistAttempt p d o ∉ (broadcastLoop f pending cur qs).2.2 := by
  induction pending with
  | nil =>
    intro cur qs p d o h
    simp [broadcastLoop] at h
  | cons c rest ih =>
    intro cur qs p d o h
    cases hcl : (findQ qs c).closed
    · by_cases hlt : (findQ qs c).msgs.length < sendBufferCapacity
      · have hstep : (broadcastLoop f (c :: rest) cur qs).2.2 =
            Event.enqueued c f ::
              (broadcastLoop f rest cur
                (setA qs c ⟨(findQ qs c).msgs ++ [f], false⟩)).2.2 := by
          simp [broadcastLoop, hcl, hlt]
        rw [hstep] at h
        rcases List.mem_cons.mp h with h | h
        · exact absurd h (by simp)
        · exact ih _ _ _ _ _ h
      · have hstep : (broadcastLoop f (c :: rest) cur qs).2.2 =
            Event.closedQ c ::
              (broadcastLoop f rest (cur.filter (fun x => decide (x ≠ c)))
                (setA qs c ⟨(findQ qs c).msgs, true⟩)).2.2 := by
          simp [broadcastLoop, hcl, hlt]
        rw [hstep] at h
        rcases List.mem_cons.mp h with h | h
        · exact absurd h (by simp)
        · exact ih _ _ _ _ _ h
    · have hstep : (broadcastLoop f (c :: rest) cur qs).2.2 = [Event.sendClosed c] := by
        simp [broadcastLoop, hcl]
      rw [hstep] at h
      rcases List.mem_cons.mp h with h | h
      · exact absurd h (by simp)
      · exact absurd h (by simp)

theorem broadcastToRoom_no_persist (st : HubState) (rid : Int) (m : Message)
    (p : DbMessage) (d : Nat) (o : Bool) :
    Event.persistAttempt p d o ∉ (broadcastToRoom st rid m).2 := by
  unfold broadcastToRoom
  cases hl : lookupA st.rooms rid with
  | none => simp
  | some b =>
    simp only []
    exact broadcastLoop_no_persist (marshal m) b b st.queues p d o

theorem broadcastLoop_bucket_subset (f : Frame) (pending : List Client) :
    ∀ (cur : List Client) (qs : List (Client × QState)) (x : Client),
    x ∈ (broadcastLoop f pending cur qs).1 → x ∈ cur := by
  induction pending with
  | nil =>
    intro cur qs x h
    simpa [broadcastLoop] using h
  | cons c rest ih =>
    intro cur qs x h
    cases hcl : (findQ qs c).closed
    · by_cases hlt : (findQ qs c).msgs.length < sendBufferCapacity
      · have hstep : (broadcastLoop f (c :: rest) cur qs).1 =
            (broadcastLoop f rest cur
              (setA qs c ⟨(findQ qs c).msgs ++ [f], false⟩)).1 := by
          simp [broadcastLoop, hcl, hlt]
        rw [hstep] at h
        exact ih _ _ x h
      · have hstep : (broadcastLoop f (c :: rest) cur qs).1 =
            (broadcastLoop f rest (cur.filter (fun y => decide (y ≠ c)))
              (setA qs c ⟨(findQ qs c).msgs, true⟩)).1 := by
          simp [broadcastLoop, hcl, hlt]
        rw [hstep] at h
        exact (List.mem_filter.mp (ih _ _ x h)).1
    · have hstep : (broadcastLoop f (c :: rest) cur qs).1 = cur := by
        simp [broadcastLoop, hcl]
      rw [hstep] at h
      exact h

/-- Concrete connection used by witnesses: user 10 "alice" in room 1. -/
def aliceClient : Client := ⟨1, 10, "alice", 1⟩

/-- Concrete connection used by witnesses: user 20 "bob" in room 1. -/
def bobClient : Client := ⟨2, 20, "bob", 1⟩

/-- A concrete chat message from alice to room 1. -/
def chatMsg : Message := ⟨1, 10, "alice", "hello", "message"⟩

/-- A hub state with alice registered alone in room 1, her channel open and
empty (reachable by `run initHub [Op.register aliceClient]` up to the
buffered join frame). -/
def oneClientState : HubState :=
  ⟨[(1, [aliceClient])], [(aliceClient, ⟨[], false⟩)]⟩

/-- A hub state with alice (empty queue) and bob (full queue: 256 buffered
frames) registered in room 1. -/
def fullBobState : HubState :=
  ⟨[(1, [aliceClient, bobClient])],
   [(aliceClient, ⟨[], false⟩), (bobClient, ⟨List.replicate 256 [], false⟩)]⟩

/-- C9: under the precondition that no connection is registered twice, every
finite request sequence processed by the hub loop from the empty hub closes
each connection's outbound queue at most once, never sends on an
already-closed queue, and never closes an already-closed queue — the two
operations that would panic the hub goroutine (and hence the process) are
unreachable, so no hub operation is fatal. -/
theorem hub_queue_teardown_safe (ops : List Op) (h : dupReg ops = false) :
    (∀ c, Event.sendClosed c ∉ (run initHub ops).2) ∧
    (∀ c, Event.closeClosed c ∉ (run initHub ops).2) ∧
    (∀ c, closedQCount c (run initHub ops).2 ≤ 1) := by
  have hP : ∀ c, (lookupA initHub.queues c).isSome = true → regCount c ops = 0 := by
    intro c hc
    simp [initHub, lookupA] at hc
  obtain ⟨h1, h2, _, h4⟩ := run_safety ops initHub initHub_WF hP h
  exact ⟨h1, h2, h4⟩

/-- Concrete request sequence for the C9 witness. -/
def witnessOps : List Op :=
  [Op.register aliceClient, Op.broadcast chatMsg true, Op.unregister aliceClient,
   Op.unregister aliceClient]

/-- Witness for C9 at a concrete request sequence. -/
theorem hub_queue_teardown_safe_witness :
    dupReg witnessOps = false ∧
    Event.sendClosed aliceClient ∉ (run initHub witnessOps).2 ∧
    closedQCount aliceClient (run initHub witnessOps).2 ≤ 1 :=
  ⟨by decide, (hub_queue_teardown_safe witnessOps (by decide)).1 aliceClient,
   (hub_queue_teardown_safe witnessOps (by decide)).2.2 aliceClient⟩

/-- C3: a Broadcast attempts persistence exactly when the message kind is
chat (wire type "message"); the attempt carries the room, sender and content
under the fixed 5-second deadline (taken from `context.Background()`, hence
independent of any caller deadline); and the resulting hub state — the
fan-out to every connection in the room — is identical whether the
persistence call succeeds or fails, so delivery is never aborted. -/
theorem persistence_best_effort (st : HubState) (m : Message) (ok : Bool) :
    (handleBroadcast st m ok).1 = (handleBroadcast st m true).1 ∧
    (handleBroadcast st m ok).1 = (broadcastToRoom st m.roomID m).1 ∧
    ((∃ p d o, Event.persistAttempt p d o ∈ (handleBroadcast st m ok).2) ↔
      m.type = "message") ∧
    (∀ p d o, Event.persistAttempt p d o ∈ (handleBroadcast st m ok).2 →
      p = ⟨m.roomID, m.userID, m.content⟩ ∧ d = persistTimeoutSeconds ∧ o = ok) ∧
    persistTimeoutSeconds = 5 ∧
    (∀ e, e ∈ (broadcastToRoom st m.roomID m).2 → e ∈ (handleBroadcast st m ok).2) := by
  have hred : ∀ o2 : Bool, handleBroadcast st m o2 =
      ((broadcastToRoom st m.roomID m).1,
       (if m.type = "message" then
          [Event.persistAttempt ⟨m.roomID, m.userID, m.content⟩ persistTimeoutSeconds o2]
        else []) ++ (broadcastToRoom st m.roomID m).2) := by
    intro o2
    simp [handleBroadcast]
  refine ⟨by rw [hred ok, hred true], by rw [hred ok], ?_, ?_, rfl, ?_⟩
  · constructor
    · rintro ⟨p, d, o, hp⟩
      rw [hred ok] at hp
      rcases List.mem_append.mp hp with hp | hp
      · by_cases ht : m.type = "message"
        · exact ht
        · rw [if_neg ht] at hp
          exact absurd hp (by simp)
      · exact absurd hp (broadcastToRoom_no_persist st m.roomID m p d o)
    · intro ht
      refine ⟨⟨m.roomID, m.userID, m.content⟩, persistTimeoutSeconds, ok, ?_⟩
      rw [hred ok]
      apply List.mem_append.mpr
      left
      rw [if_pos ht]
      exact List.mem_singleton_self _
  · intro p d o hp
    rw [hred ok] at hp
    rcases List.mem_append.mp hp with hp | hp
    · by_cases ht : m.type = "message"
      · rw [if_pos ht, List.mem_singleton] at hp
        injection hp with h1 h2 h3
        exact ⟨h1, h2, h3⟩
      · rw [if_neg ht] at hp
        exact absurd hp (by simp)
    · exact absurd hp (broadcastToRoom_no_persist st m.roomID m p d o)
  · intro e he
    rw [hred ok]
    exact List.mem_append.mpr (Or.inr he)

/-- Witness for C3 at a concrete state and message: a failed persistence
still delivers the chat frame to the room member. -/
theorem persistence_best_effort_witness :
    (handleBroadcast oneClientState chatMsg false).1 =
      (handleBroadcast oneClientState chatMsg true).1 ∧
    chatMsg.type = "message" ∧
    Event.enqueued aliceClient (marshal chatMsg) ∈
      (handleBroadcast oneClientState chatMsg false).2 :=
  ⟨(persistence_best_effort oneClientState chatMsg false).1, by decide,
   (persistence_best_effort oneClientState chatMsg false).2.2.2.2.2
     (Event.enqueued aliceClient (marshal chatMsg)) (by decide)⟩

/-- Trace used for the C4 counterexample: alice registers in room 1 and a
chat message is broadcast. -/
def chatTrace : List Op := [Op.register aliceClient, Op.broadcast chatMsg true]

/-- C4 counterexample: the frame delivered over the connection for a
`type = "message"` broadcast carries exactly the fields room_id, user_id,
username, content, type — `created_at` is absent even though the claim
requires it to be present exactly for "message" frames. -/
theorem created_at_cex :
    chatMsg.type = "message" ∧
    Event.enqueued aliceClient (marshal chatMsg) ∈ (run initHub chatTrace).2 ∧
    frameKeys (marshal chatMsg) =
      ["room_id", "user_id", "username", "content", "type"] ∧
    "created_at" ∉ frameKeys (marshal chatMsg) := by decide

/-- C4 amended: every frame a broadcast enqueues on a connection is the
marshalled `websocket.Message` and has exactly the five fields room_id,
user_id, username, content, type; `created_at` is never present in a frame
on the persistent connection, whatever the frame type (it appears only in
persisted records returned by history retrieval). -/
theorem broadcast_frame_fields (st : HubState) (rid : Int) (m : Message)
    (c : Client) (f : Frame)
    (h : Event.enqueued c f ∈ (broadcastToRoom st rid m).2) :
    f = marshal m ∧
    frameKeys f = ["room_id", "user_id", "username", "content", "type"] ∧
    "created_at" ∉ frameKeys f := by
  have hf : f = marshal m := broadcastToRoom_enqueued_frame st rid m c f h
  subst hf
  refine ⟨rfl, rfl, ?_⟩
  simp [frameKeys, marshal]

/-- Witness for the amended C4 at a concrete broadcast. -/
theorem broadcast_frame_fields_witness :
    Event.enqueued aliceClient (marshal chatMsg) ∈
      (broadcastToRoom oneClientState 1 chatMsg).2 ∧
    frameKeys (marshal chatMsg) =
      ["room_id", "user_id", "username", "content", "type"] ∧
    "created_at" ∉ frameKeys (marshal chatMsg) :=
  ⟨by decide,
   (broadcast_frame_fields oneClientState 1 chatMsg aliceClient (marshal chatMsg)
     (by decide)).2.1,
   (broadcast_frame_fields oneClientState 1 chatMsg aliceClient (marshal chatMsg)
     (by decide)).2.2⟩

/-- C2: in one Broadcast to a room, every member receives exactly one
non-blocking enqueue attempt (one event per member); a member whose bounded
queue (capacity 256) is full is removed from the room's member set and its
queue is closed within that same Broadcast; and every member whose queue is
not full receives the message of that same call. -/
theorem broadcast_backpressure (st : HubState) (rid : Int) (m : Message)
    (b : List Client) (hb : lookupA st.rooms rid = some b) (hnd : b.Nodup)
    (hopen : ∀ c ∈ b, (findQ st.queues c).closed = false) :
    sendBufferCapacity = 256 ∧
    (broadcastToRoom st rid m).2.length = b.length ∧
    (∀ c ∈ b, ¬ (findQ st.queues c).msgs.length < sendBufferCapacity →
      Event.closedQ c ∈ (broadcastToRoom st rid m).2 ∧
      (findQ (broadcastToRoom st rid m).1.queues c).closed = true ∧
      (∀ b2, lookupA (broadcastToRoom st rid m).1.rooms rid = some b2 → c ∉ b2)) ∧
    (∀ c ∈ b, (findQ st.queues c).msgs.length < sendBufferCapacity →
      Event.enqueued c (marshal m) ∈ (broadcastToRoom st rid m).2 ∧
      (findQ (broadcastToRoom st rid m).1.queues c).msgs =
        (findQ st.queues c).msgs ++ [marshal m]) := by
  obtain ⟨hE, hQ, hR, hO⟩ := broadcastToRoom_spec st rid m b hb hnd hopen
  refine ⟨rfl, by rw [hE, List.length_map], ?_, ?_⟩
  · intro c hc hfull
    refine ⟨?_, ?_, ?_⟩
    · rw [hE]
      refine List.mem_map.mpr ⟨c, hc, ?_⟩
      unfold evOf
      rw [if_neg hfull]
    · have hfq : findQ (broadcastToRoom st rid m).1.queues c =
          qAfter st.queues (marshal m) c := by
        unfold findQ
        rw [hQ c, if_pos hc]
        rfl
      rw [hfq]
      unfold qAfter
      rw [if_neg hfull]
    · intro b2 hb2
      rw [hR] at hb2
      obtain rfl := (Option.some.inj hb2).symm
      intro hcb2
      have hk := (List.mem_filter.mp hcb2).2
      unfold keep at hk
      rw [if_pos hc] at hk
      exact hfull (of_decide_eq_true hk)
  · intro c hc hlt
    refine ⟨?_, ?_⟩
    · rw [hE]
      refine List.mem_map.mpr ⟨c, hc, ?_⟩
      unfold evOf
      rw [if_pos hlt]
    · have hfq : findQ (broadcastToRoom st rid m).1.queues c =
          qAfter st.queues (marshal m) c := by
        unfold findQ
        rw [hQ c, if_pos hc]
        rfl
      rw [hfq]
      unfold qAfter
      rw [if_pos hlt]

/-- Witness for C2: bob's queue holds 256 frames, alice's is empty; one
broadcast evicts bob and still delivers to alice. -/
theorem broadcast_backpressure_witness :
    lookupA fullBobState.rooms 1 = some [aliceClient, bobClient] ∧
    Event.closedQ bobClient ∈ (broadcastToRoom fullBobState 1 chatMsg).2 ∧
    Event.enqueued aliceClient (marshal chatMsg) ∈
      (broadcastToRoom fullBobState 1 chatMsg).2 :=
  ⟨by decide,
   ((broadcast_backpressure fullBobState 1 chatMsg [aliceClient, bobClient]
      (by decide) (by decide) (by decide)).2.2.1 bobClient (by decide)
      (by decide)).1,
   ((broadcast_backpressure fullBobState 1 chatMsg [aliceClient, bobClient]
      (by decide) (by decide) (by decide)).2.2.2 aliceClient (by decide)
      (by decide)).1⟩

/-- C5: Register adds the connection to its room's set (creating the bucket
if absent), then broadcasts a synthetic join message — sender identity and
display name taken from the connection — delivered to every connection now
in the room, the joiner included; the operation has no failure path (no
panic event, total function). -/
theorem register_effect (st : HubState) (c : Client) (b : List Client)
    (hb : (lookupA st.rooms c.roomID).getD [] = b)
    (hnd : (b ++ [c]).Nodup)
    (hok : ∀ x ∈ b ++ [c], (findQ st.queues x).closed = false ∧
        (findQ st.queues x).msgs.length < sendBufferCapacity) :
    lookupA (registerClient st c).1.rooms c.roomID = some (b ++ [c]) ∧
    (registerClient st c).2 =
      (b ++ [c]).map (fun x => Event.enqueued x (marshal (joinMessage c))) ∧
    (∀ x ∈ b ++ [c], (findQ (registerClient st c).1.queues x).msgs =
        (findQ st.queues x).msgs ++ [marshal (joinMessage c)]) ∧
    joinMessage c = ⟨c.roomID, c.userID, c.username,
      c.username ++ " joined the room", "join"⟩ ∧
    (∀ x, Event.sendClosed x ∉ (registerClient st c).2) := by
  have hcnb : c ∉ b := fun hc =>
    (List.nodup_append.mp hnd).2.2 hc (List.mem_singleton_self c)
  have hred : registerClient st c =
      broadcastToRoom ⟨setA st.rooms c.roomID (b ++ [c]), st.queues⟩
        c.roomID (joinMessage c) := by
    simp [registerClient, hb, hcnb]
  set stJ : HubState := ⟨setA st.rooms c.roomID (b ++ [c]), st.queues⟩ with hstJ
  have hbJ : lookupA stJ.rooms c.roomID = some (b ++ [c]) := by
    rw [hstJ]
    simp only []
    rw [lookupA_setA, if_pos rfl]
  have hopen : ∀ x ∈ b ++ [c], (findQ stJ.queues x).closed = false :=
    fun x hx => (hok x hx).1
  obtain ⟨hE, hQ, hR, hO⟩ :=
    broadcastToRoom_spec stJ c.roomID (joinMessage c) (b ++ [c]) hbJ hnd hopen
  rw [hred]
  refine ⟨?_, ?_, ?_, rfl, ?_⟩
  · rw [hR]
    congr 1
    apply List.filter_eq_self.mpr
    intro x hx
    unfold keep
    rw [if_pos hx]
    exact decide_eq_true (hok x hx).2
  · rw [hE]
    apply List.map_congr_left
    intro x hx
    unfold evOf
    rw [if_pos (hok x hx).2]
  · intro x hx
    have hfq : findQ (broadcastToRoom stJ c.roomID (joinMessage c)).1.queues x =
        qAfter stJ.queues (marshal (joinMessage c)) x := by
      unfold findQ
      rw [hQ x, if_pos hx]
      rfl
    rw [hfq]
    unfold qAfter
    rw [if_pos (hok x hx).2]
  · intro x hx
    rw [hE] at hx
    obtain ⟨y, _, hev⟩ := List.mem_map.mp hx
    exact evOf_ne_sendClosed _ _ y x hev

/-- Witness for C5: bob registers in room 1 where alice already is; the
bucket becomes [alice, bob] and both receive the join frame. -/
theorem register_effect_witness :
    (lookupA oneClientState.rooms bobClient.roomID).getD [] = [aliceClient] ∧
    lookupA (registerClient oneClientState bobClient).1.rooms bobClient.roomID =
      some ([aliceClient] ++ [bobClient]) ∧
    (registerClient oneClientState bobClient).2 =
      ([aliceClient] ++ [bobClient]).map
        (fun x => Event.enqueued x (marshal (joinMessage bobClient))) :=
  ⟨by decide,
   (register_effect oneClientState bobClient [aliceClient] (by decide) (by decide)
     (by decide)).1,
   (register_effect oneClientState bobClient [aliceClient] (by decide) (by decide)
     (by decide)).2.1⟩

/-- C10: registering a connection that is already in its room's set leaves
the member set unchanged (map-set insertion is idempotent) but still
broadcasts one more join message to every member — so a double Register
yields two join broadcasts while membership stays single. -/
theorem duplicate_register (st : HubState) (c : Client) (b : List Client)
    (hb : lookupA st.rooms c.roomID = some b) (hc : c ∈ b) (hnd : b.Nodup)
    (hok : ∀ x ∈ b, (findQ st.queues x).closed = false ∧
        (findQ st.queues x).msgs.length < sendBufferCapacity) :
    lookupA (registerClient st c).1.rooms c.roomID = some b ∧
    (registerClient st c).2 =
      b.map (fun x => Event.enqueued x (marshal (joinMessage c))) := by
  have hred : registerClient st c =
      broadcastToRoom ⟨setA st.rooms c.roomID b, st.queues⟩
        c.roomID (joinMessage c) := by
    simp [registerClient, hb, hc]
  set stJ : HubState := ⟨setA st.rooms c.roomID b, st.queues⟩ with hstJ
  have hbJ : lookupA stJ.rooms c.roomID = some b := by
    rw [hstJ]
    simp only []
    rw [lookupA_setA, if_pos rfl]
  have hopen : ∀ x ∈ b, (findQ stJ.queues x).closed = false :=
    fun x hx => (hok x hx).1
  obtain ⟨hE, hQ, hR, hO⟩ :=
    broadcastToRoom_spec stJ c.roomID (joinMessage c) b hbJ hnd hopen
  rw [hred]
  refine ⟨?_, ?_⟩
  · rw [hR]
    congr 1
    apply List.filter_eq_self.mpr
    intro x hx
    unfold keep
    rw [if_pos hx]
    exact decide_eq_true (hok x hx).2
  · rw [hE]
    apply List.map_congr_left
    intro x hx
    unfold evOf
    rw [if_pos (hok x hx).2]

/-- Witness for C10: alice registers again while already in room 1; the
bucket stays [alice] and one more join broadcast is emitted. -/
theorem duplicate_register_witness :
    aliceClient ∈ [aliceClient] ∧
    lookupA (registerClient oneClientState aliceClient).1.rooms
      aliceClient.roomID = some [aliceClient] ∧
    (registerClient oneClientState aliceClient).2 =
      [aliceClient].map
        (fun x => Event.enqueued x (marshal (joinMessage aliceClient))) :=
  ⟨by decide,
   (duplicate_register oneClientState aliceClient [aliceClient] (by decide)
     (by decide) (by decide) (by decide)).1,
   (duplicate_register oneClientState aliceClient [aliceClient] (by decide)
     (by decide) (by decide) (by decide)).2⟩

/-- C6: Unregister of a connection absent from its room's set is a complete
no-op (state untouched, no events, nothing closed), and the state after
applying Unregister twice equals the state after applying it once; when the
connection is present, Unregister removes it from the set, closes its queue
exactly once, deletes the room entry if the set became empty, and broadcasts
the leave message to the remaining (possibly empty) room. -/
theorem unregister_contract (st : HubState) (c : Client) :
    ((∀ b, lookupA st.rooms c.roomID = some b → c ∉ b) →
      unregisterClient st c = (st, [])) ∧
    (unregisterClient (unregisterClient st c).1 c).1 = (unregisterClient st c).1 ∧
    (∀ b, lookupA st.rooms c.roomID = some b → c ∈ b → b.Nodup →
      (∀ x ∈ b, (findQ st.queues x).closed = false) →
      (findQ (unregisterClient st c).1.queues c).closed = true ∧
      closedQCount c (unregisterClient st c).2 = 1 ∧
      (∀ b3, lookupA (unregisterClient st c).1.rooms c.roomID = some b3 →
        c ∉ b3) ∧
      (b.filter (fun x => decide (x ≠ c)) = [] →
        lookupA (unregisterClient st c).1.rooms c.roomID = none) ∧
      (∀ x ∈ b.filter (fun y => decide (y ≠ c)),
        (findQ st.queues x).msgs.length < sendBufferCapacity →
        Event.enqueued x (marshal (leaveMessage c)) ∈ (unregisterClient st c).2) ∧
      (∀ x f2, Event.enqueued x f2 ∈ (unregisterClient st c).2 →
        f2 = marshal (leaveMessage c)) ∧
      leaveMessage c = ⟨c.roomID, c.userID, c.username,
        c.username ++ " left the room", "leave"⟩) := by
  have hnoop : ∀ st2 : HubState,
      (∀ b3, lookupA st2.rooms c.roomID = some b3 → c ∉ b3) →
      unregisterClient st2 c = (st2, []) := by
    intro st2 h3
    cases hl2 : lookupA st2.rooms c.roomID with
    | none => simp [unregisterClient, hl2]
    | some b3 => simp [unregisterClient, hl2, h3 b3 hl2]
  refine ⟨hnoop st, ?_, ?_⟩
  · -- applying twice equals applying once, on states
    cases hl : lookupA st.rooms c.roomID with
    | none =>
      have h1 : unregisterClient st c = (st, []) := by
        simp [unregisterClient, hl]
      simp [h1]
    | some b =>
      by_cases hcb : c ∈ b
      · by_cases hclosed : (findQ st.queues c).closed
        · have h1 : unregisterClient st c = (st, [Event.closeClosed c]) := by
            simp [unregisterClient, hl, hcb, hclosed]
          simp [h1]
        · set b2 := b.filter (fun x => decide (x ≠ c)) with hb2
          set stU : HubState :=
            ⟨if b2.isEmpty then eraseA st.rooms c.roomID
              else setA st.rooms c.roomID b2,
             setA st.queues c ⟨(findQ st.queues c).msgs, true⟩⟩ with hstU
          have hred : unregisterClient st c =
              ((broadcastToRoom stU c.roomID (leaveMessage c)).1,
               Event.closedQ c ::
                 (broadcastToRoom stU c.roomID (leaveMessage c)).2) := by
            simp [unregisterClient, hl, hcb, hclosed, hstU, hb2]
          have habs : ∀ b3,
              lookupA (broadcastToRoom stU c.roomID (leaveMessage c)).1.rooms
                c.roomID = some b3 → c ∉ b3 := by
            intro b3 hb3
            by_cases hbe : b2.isEmpty
            · have hl2 : lookupA stU.rooms c.roomID = none := by
                rw [hstU]
                simp only []
                rw [if_pos hbe, lookupA_eraseA, if_pos rfl]
              have hbtr : broadcastToRoom stU c.roomID (leaveMessage c) =
                  (stU, []) := by
                unfold broadcastToRoom
                rw [hl2]
              rw [hbtr] at hb3
              rw [hl2] at hb3
              exact absurd hb3 (by simp)
            · have hlu : lookupA stU.rooms c.roomID = some b2 := by
                rw [hstU]
                simp only []
                rw [if_neg hbe, lookupA_setA, if_pos rfl]
              have hbtr : broadcastToRoom stU c.roomID (leaveMessage c) =
                  (⟨setA stU.rooms c.roomID
                      (broadcastLoop (marshal (leaveMessage c)) b2 b2 stU.queues).1,
                    (broadcastLoop (marshal (leaveMessage c)) b2 b2 stU.queues).2.1⟩,
                   (broadcastLoop (marshal (leaveMessage c)) b2 b2 stU.queues).2.2) := by
                unfold broadcastToRoom
                rw [hlu]
              rw [hbtr] at hb3
              simp only [] at hb3
              rw [lookupA_setA, if_pos rfl] at hb3
              obtain rfl := (Option.some.inj hb3).symm
              intro hc3
              have hsub := broadcastLoop_bucket_subset
                (marshal (leaveMessage c)) b2 b2 stU.queues c hc3
              rw [hb2] at hsub
              have := (List.mem_filter.mp hsub).2
              simp at this
          rw [hred]
          simp only []
          rw [hnoop (broadcastToRoom stU c.roomID (leaveMessage c)).1 habs]
      · have h1 : unregisterClient st c = (st, []) := by
          simp [unregisterClient, hl, hcb]
        simp [h1]
  · -- present case
    intro b hl hcb hnd hopen
    have hcop : (findQ st.queues c).closed = false := hopen c hcb
    set b2 := b.filter (fun x => decide (x ≠ c)) with hb2
    set stU : HubState :=
      ⟨if b2.isEmpty then eraseA st.rooms c.roomID
        else setA st.rooms c.roomID b2,
       setA st.queues c ⟨(findQ st.queues c).msgs, true⟩⟩ with hstU
    have hred : unregisterClient st c =
        ((broadcastToRoom stU c.roomID (leaveMessage c)).1,
         Event.closedQ c ::
           (broadcastToRoom stU c.roomID (leaveMessage c)).2) := by
      simp [unregisterClient, hl, hcb, hcop, hstU, hb2]
    have hfindUc : findQ stU.queues c = ⟨(findQ st.queues c).msgs, true⟩ := by
      rw [hstU]
      simp only []
      rw [findQ_setA, if_pos rfl]
    have hfindU : ∀ x, x ≠ c → findQ stU.queues x = findQ st.queues x := by
      intro x hx
      rw [hstU]
      simp only []
      rw [findQ_setA, if_neg (fun h => hx h.symm)]
    have hcnb2 : c ∉ b2 := by
      intro hc2
      rw [hb2] at hc2
      have := (List.mem_filter.mp hc2).2
      simp at this
    have hnd2 : b2.Nodup := by
      rw [hb2]
      exact hnd.filter _
    have hopen2 : ∀ x ∈ b2, (findQ stU.queues x).closed = false := by
      intro x hx
      rw [hb2] at hx
      have hxc : x ≠ c := of_decide_eq_true (List.mem_filter.mp hx).2
      rw [hfindU x hxc]
      exact hopen x (List.mem_filter.mp hx).1
    rw [hred]
    by_cases hbe : b2.isEmpty
    · have hbl : b.filter (fun x => decide (x ≠ c)) = [] := by
        rw [← hb2]
        exact List.isEmpty_iff.mp hbe
      have hl2 : lookupA stU.rooms c.roomID = none := by
        rw [hstU]
        simp only []
        rw [if_pos hbe, lookupA_eraseA, if_pos rfl]
      have hbtr : broadcastToRoom stU c.roomID (leaveMessage c) = (stU, []) := by
        unfold broadcastToRoom
        rw [hl2]
      rw [hbtr]
      refine ⟨?_, ?_, ?_, ?_, ?_, ?_, rfl⟩
      · rw [hfindUc]
      · simp [closedQCount]
      · intro b3 hb3
        rw [hl2] at hb3
        exact absurd hb3 (by simp)
      · intro _
        exact hl2
      · intro x hx
        rw [List.isEmpty_iff.mp hbe] at hx
        exact absurd hx (by simp)
      · intro x f2 hev
        rcases List.mem_cons.mp hev with hev | hev
        · exact absurd hev (by simp)
        · exact absurd hev (by simp)
    · have hlu : lookupA stU.rooms c.roomID = some b2 := by
        rw [hstU]
        simp only []
        rw [if_neg hbe, lookupA_setA, if_pos rfl]
      obtain ⟨hE, hQ, hR, hO⟩ :=
        broadcastToRoom_spec stU c.roomID (leaveMessage c) b2 hlu hnd2 hopen2
      refine ⟨?_, ?_, ?_, ?_, ?_, ?_, rfl⟩
      · unfold findQ
        rw [hQ c, if_neg hcnb2]
        rw [show lookupA stU.queues c = some ⟨(findQ st.queues c).msgs, true⟩ from ?_]
        · rfl
        · rw [hstU]
          simp only []
          rw [lookupA_setA, if_pos rfl]
      · rw [closedQCount_cons, if_pos rfl, hE]
        rw [closedQCount_map_evOf_zero c b2 stU.queues (marshal (leaveMessage c)) hcnb2]
      · intro b3 hb3
        rw [hR] at hb3
        obtain rfl := (Option.some.inj hb3).symm
        intro hc3
        exact hcnb2 (List.mem_filter.mp hc3).1
      · intro hfil
        exact absurd (by rw [hfil]; rfl : b2.isEmpty = true) hbe
      · intro x hx hlt
        have hxb : x ∈ List.filter (fun y => decide (y ≠ c)) b := hx
        have hxc : x ≠ c := of_decide_eq_true (List.mem_filter.mp hxb).2
        apply List.mem_cons.mpr
        right
        rw [hE]
        refine List.mem_map.mpr ⟨x, hx, ?_⟩
        unfold evOf
        rw [hfindU x hxc, if_pos hlt]

      · intro x f2 hev
        rcases List.mem_cons.mp hev with hev | hev
        · exact absurd hev (by simp)
        · exact broadcastToRoom_enqueued_frame stU c.roomID (leaveMessage c) x f2 hev

/-- Witness for C6 at a concrete present connection (alice alone in room 1):
her queue is closed, the room entry is deleted, and the absent-case no-op is
checked on the empty hub. -/
theorem unregister_contract_witness :
    (findQ (unregisterClient oneClientState aliceClient).1.queues
      aliceClient).closed = true ∧
    closedQCount aliceClient (unregisterClient oneClientState aliceClient).2 = 1 ∧
    unregisterClient initHub aliceClient = (initHub, []) :=
  ⟨((unregister_contract oneClientState aliceClient).2.2 [aliceClient] (by decide)
      (by decide) (by decide) (by decide)).1,
   ((unregister_contract oneClientState aliceClient).2.2 [aliceClient] (by decide)
      (by decide) (by decide) (by decide)).2.1,
   (unregister_contract initHub aliceClient).1 (by
      intro b3 hb3
      simp [initHub, lookupA] at hb3)⟩

/-- Trace for the C1 counterexample: alice registers in room 1 (1 join frame
buffered), then 256 chat broadcasts follow; the 256th finds her queue full
(256 frames) and evicts her, draining room 1. -/
def evictTrace : List Op :=
  Op.register aliceClient :: List.replicate 256 (Op.broadcast chatMsg true)

/-- C1 counterexample: a reachable hub state in which room 1 is still a key
of the registry although its member set is empty — the eviction branch of
`broadcastToRoom` removed the last member without deleting the room entry,
refuting the key-present-iff-member-present invariant. -/
theorem registry_invariant_cex :
    lookupA (run initHub evictTrace).1.rooms 1 = some [] := by decide

/-- C1 amended: Unregister deletes the room's registry entry exactly when it
removes the last member (and the entry survives exactly when the connection
was absent or other members remain), but Broadcast — including its
full-queue eviction branch — never changes the registry's key set, so an
eviction that drains a room leaves the room's empty entry in the registry. -/
theorem registry_key_policy (st : HubState) (rid : Int) (m : Message) (c : Client)
    (r2 : Int)
    (hopen : ∀ b, lookupA st.rooms c.roomID = some b →
        ∀ x ∈ b, (findQ st.queues x).closed = false) :
    (lookupA (broadcastToRoom st rid m).1.rooms r2).isSome =
      (lookupA st.rooms r2).isSome ∧
    ((lookupA (unregisterClient st c).1.rooms c.roomID).isSome = true ↔
      ∃ b, lookupA st.rooms c.roomID = some b ∧
        (c ∈ b → b.filter (fun x => decide (x ≠ c)) ≠ [])) := by
  refine ⟨broadcastToRoom_keys st rid m r2, ?_⟩
  cases hl : lookupA st.rooms c.roomID with
  | none =>
    have h1 : unregisterClient st c = (st, []) := by
      simp [unregisterClient, hl]
    rw [h1]
    simp [hl]
  | some b =>
    by_cases hcb : c ∈ b
    · have hcop : (findQ st.queues c).closed = false := hopen b hl c hcb
      set b2 := b.filter (fun x => decide (x ≠ c)) with hb2
      set stU : HubState :=
        ⟨if b2.isEmpty then eraseA st.rooms c.roomID
          else setA st.rooms c.roomID b2,
         setA st.queues c ⟨(findQ st.queues c).msgs, true⟩⟩ with hstU
      have hred : unregisterClient st c =
          ((broadcastToRoom stU c.roomID (leaveMessage c)).1,
           Event.closedQ c ::
             (broadcastToRoom stU c.roomID (leaveMessage c)).2) := by
        simp [unregisterClient, hl, hcb, hcop, hstU, hb2]
      have hkeys : (lookupA (unregisterClient st c).1.rooms c.roomID).isSome =
          (lookupA stU.rooms c.roomID).isSome := by
        rw [hred]
        exact broadcastToRoom_keys stU c.roomID (leaveMessage c) c.roomID
      by_cases hbe : b2.isEmpty
      · have hl2 : lookupA stU.rooms c.roomID = none := by
          rw [hstU]
          simp only []
          rw [if_pos hbe, lookupA_eraseA, if_pos rfl]
        rw [hkeys, hl2]
        constructor
        · intro hfalse
          exact absurd hfalse (by simp)
        · rintro ⟨b3, hb3, himp⟩
          obtain rfl := Option.some.inj hb3
          exact absurd (List.isEmpty_iff.mp hbe) (himp hcb)
      · have hl2 : lookupA stU.rooms c.roomID = some b2 := by
          rw [hstU]
          simp only []
          rw [if_neg hbe, lookupA_setA, if_pos rfl]
        rw [hkeys, hl2]
        constructor
        · intro _
          refine ⟨b, rfl, fun _ hfil => ?_⟩
          exact hbe (by rw [hb2, hfil]; rfl)
        · intro _
          rfl
    · have h1 : unregisterClient st c = (st, []) := by
        simp [unregisterClient, hl, hcb]
      rw [h1]
      simp only [hl]
      constructor
      · intro _
        exact ⟨b, rfl, fun hc => absurd hc hcb⟩
      · intro _
        rfl

/-- Witness for the amended C1: in a one-member room, Unregister of the
member deletes the key; a broadcast to the full-queue state of
`fullBobState` preserves the key set even though it evicts bob. -/
theorem registry_key_policy_witness :
    (lookupA (broadcastToRoom fullBobState 1 chatMsg).1.rooms 1).isSome =
      (lookupA fullBobState.rooms 1).isSome ∧
    ((lookupA (unregisterClient oneClientState aliceClient).1.rooms
        aliceClient.roomID).isSome = true ↔
      ∃ b, lookupA oneClientState.rooms aliceClient.roomID = some b ∧
        (aliceClient ∈ b →
          b.filter (fun x => decide (x ≠ aliceClient)) ≠ [])) :=
  ⟨(registry_key_policy fullBobState 1 chatMsg aliceClient 1 (by decide)).1,
   (registry_key_policy oneClientState 1 chatMsg aliceClient 1 (by decide)).2⟩

/-- C7 counterexample: a single failing read (how a malformed or oversized
websocket frame surfaces from `ReadMessage`) makes the reader exit its loop
and submit Unregister, and a successfully read frame whose payload is not
JSON is not discarded — it is forwarded to the Hub as a chat message.  Both
contradict "the reader discards the individual frame only and continues". -/
theorem reader_tolerance_cex :
    readPump aliceClient [ReadResult.readFail] = ([], true) ∧
    readPump aliceClient [ReadResult.frame "not a json object"] =
      ([mkInbound aliceClient "not a json object"], false) ∧
    (mkInbound aliceClient "not a json object").content = "not a json object" ∧
    (mkInbound aliceClient "not a json object").type = "message" := by decide

/-- C7 amended: the server reader validates nothing and discards nothing —
every frame read before the first read failure is forwarded to the Hub as a
chat-kind message carrying this connection's identity; the reader exits (and
its deferred cleanup submits Unregister) exactly when a read fails.
Per-frame malformed-JSON tolerance exists only in the browser client's
onmessage handler, not in the server reader. -/
theorem readPump_no_discard (c : Client) (rs : List ReadResult) :
    (readPump c rs).1 = (framesBeforeFailure rs).map (mkInbound c) ∧
    (readPump c rs).2 = rs.any (fun x => decide (x = ReadResult.readFail)) ∧
    (∀ m ∈ (readPump c rs).1, m.type = "message" ∧ m.roomID = c.roomID ∧
      m.userID = c.userID ∧ m.username = c.username) := by
  induction rs with
  | nil => exact ⟨rfl, rfl, fun m hm => absurd hm (by simp [readPump])⟩
  | cons r rest ih =>
    cases r with
    | frame p =>
      refine ⟨?_, ?_, ?_⟩
      · simp only [readPump, framesBeforeFailure, List.map_cons]
        rw [ih.1]
      · simp only [readPump, List.any_cons]
        rw [ih.2.1]
        simp
      · intro m hm
        have hr : readPump c (ReadResult.frame p :: rest) =
            (mkInbound c p :: (readPump c rest).1, (readPump c rest).2) := rfl
        rw [hr] at hm
        rcases List.mem_cons.mp hm with hm | hm
        · subst hm
          exact ⟨rfl, rfl, rfl, rfl⟩
        · exact ih.2.2 m hm
    | readFail =>
      refine ⟨rfl, ?_, ?_⟩
      · simp [readPump]
      · intro m hm
        exact absurd hm (by simp [readPump])

/-- Witness for the amended C7 at a concrete read sequence. -/
theorem readPump_no_discard_witness :
    (mkInbound aliceClient "hi").type = "message" ∧
    (mkInbound aliceClient "hi").roomID = aliceClient.roomID :=
  ⟨((readPump_no_discard aliceClient [ReadResult.frame "hi"]).2.2
      (mkInbound aliceClient "hi") (by decide)).1,
   ((readPump_no_discard aliceClient [ReadResult.frame "hi"]).2.2
      (mkInbound aliceClient "hi") (by decide)).2.1⟩

/-- C8: history retrieval for a room returns the reversal of the
newest-first query limited to 100 — hence a list in chronological order
(non-decreasing created_at), containing only records of that room, each
joined with the matching sender's display name; and every room record left
out is no newer than any record returned (the returned ones are the most
recent). -/
theorem history_contract (db : ChatDB) (roomID : Int) :
    getRoomMessagesHandler db roomID = GetRoomMessages db roomID 100 ∧
    getRoomMessagesHandler db roomID = ((newestFirst db roomID).take 100).reverse ∧
    List.Pairwise (fun a b : HistoryRecord => a.createdAt ≤ b.createdAt)
      (getRoomMessagesHandler db roomID) ∧
    (∀ x ∈ getRoomMessagesHandler db roomID, x.roomID = roomID ∧
      ∃ u ∈ db.users, u.id = x.userID ∧ x.username = u.username) ∧
    (∀ y ∈ newestFirst db roomID, y ∉ getRoomMessagesHandler db roomID →
      ∀ x ∈ getRoomMessagesHandler db roomID, y.createdAt ≤ x.createdAt) := by
  have hs : List.Pairwise newerFirst (newestFirst db roomID) := by
    unfold newestFirst
    exact List.sorted_insertionSort newerFirst _
  refine ⟨rfl, rfl, ?_, ?_, ?_⟩
  · show List.Pairwise _ ((newestFirst db roomID).take 100).reverse
    rw [List.pairwise_reverse]
    exact hs.sublist (List.take_sublist 100 (newestFirst db roomID))
  · intro x hx
    have hx1 : x ∈ (newestFirst db roomID).take 100 := List.mem_reverse.mp hx
    have hx2 : x ∈ newestFirst db roomID :=
      (List.take_sublist 100 (newestFirst db roomID)).subset hx1
    have hx3 : x ∈ (db.messages.filter
        (fun r => decide (r.roomID = roomID))).filterMap (joinRow db.users) := by
      have hperm := List.perm_insertionSort newerFirst
        ((db.messages.filter (fun r => decide (r.roomID = roomID))).filterMap
          (joinRow db.users))
      exact hperm.mem_iff.mp hx2
    obtain ⟨rrow, hrmem, hjoin⟩ := List.mem_filterMap.mp hx3
    unfold joinRow at hjoin
    obtain ⟨u, hfind, hgu⟩ := Option.map_eq_some'.mp hjoin
    subst hgu
    refine ⟨?_, u, List.mem_of_find?_eq_some hfind, ?_, rfl⟩
    · exact of_decide_eq_true (List.mem_filter.mp hrmem).2
    · show u.id = rrow.userID
      have hpu := List.find?_some hfind
      simp only [decide_eq_true_eq] at hpu
      exact hpu
  · intro y hy hynot x hx
    have hx1 : x ∈ (newestFirst db roomID).take 100 := List.mem_reverse.mp hx
    have hy1 : y ∉ (newestFirst db roomID).take 100 :=
      fun h => hynot (List.mem_reverse.mpr h)
    have hy2 : y ∈ (newestFirst db roomID).drop 100 := by
      rcases List.mem_append.mp
          (by rw [List.take_append_drop 100 (newestFirst db roomID)]; exact hy)
        with h | h
      · exact absurd h hy1
      · exact h
    have hpw : List.Pairwise newerFirst
        ((newestFirst db roomID).take 100 ++ (newestFirst db roomID).drop 100) := by
      rw [List.take_append_drop 100 (newestFirst db roomID)]
      exact hs
    exact (List.pairwise_append.mp hpw).2.2 x hx1 y hy2

/-- A small database for the C8 witness: two users, two chat records in
room 1 (timestamps 5 and 7) and one in room 2. -/
def historyDB : ChatDB :=
  ⟨[⟨1, 1, 10, "first", 5⟩, ⟨2, 1, 20, "second", 7⟩, ⟨3, 2, 10, "other room", 6⟩],
   [⟨10, "alice"⟩, ⟨20, "bob"⟩]⟩

/-- Witness for C8: on `historyDB` the handler returns room 1's records
oldest-to-newest with sender names joined. -/
theorem history_contract_witness :
    getRoomMessagesHandler historyDB 1 =
      [⟨1, 1, 10, "first", "alice", 5⟩, ⟨2, 1, 20, "second", "bob", 7⟩] ∧
    (⟨2, 1, 20, "second", "bob", 7⟩ : HistoryRecord).roomID = 1 ∧
    ∃ u ∈ historyDB.users,
      u.id = (⟨2, 1, 20, "second", "bob", 7⟩ : HistoryRecord).userID ∧
      (⟨2, 1, 20, "second", "bob", 7⟩ : HistoryRecord).username = u.username :=
  ⟨by decide,
   ((history_contract historyDB 1).2.2.2.1 ⟨2, 1, 20, "second", "bob", 7⟩
      (by decide)).1,
   ((history_contract historyDB 1).2.2.2.1 ⟨2, 1, 20, "second", "bob", 7⟩
      (by decide)).2⟩
